import Mathlib

/-!
Shallow embedding of the integration-test-order engine of the repository
(`src/models/component.py`, `src/models/relationship.py`,
`src/models/dependency_graph.py`, `src/strategy/test_order/*.py`,
`src/strategy/test_order_selector.py`) and proofs about it.

Modelling conventions:
* Python `UUID` values are modelled as `Nat` identifiers; `hash(uuid)` is
  modelled as the identifier itself (an injective model of the id hash).
* Python `float` is modelled as `ℚ`; the numeric literals of the source are
  exactly representable.
* Python `dict` (insertion ordered) is modelled as an association list where
  inserting an existing key updates the value in place and keeps the position.
* Python `set` values hold components keyed by their id (the classes define
  `__hash__`/`__eq__` over `self.id`); sets are modelled as lists deduplicated
  by id, and membership tests compare ids.
* `networkx` calls are modelled by executable Lean functions on the explicit
  node/edge lists kept in the graph structure; order-sensitive details
  (e.g. which topological order `nx.topological_sort` yields among the valid
  ones, or the enumeration order of `nx.simple_cycles`) are fixed to the node
  insertion order; concrete inputs used in counterexamples below are chosen so
  that the claimed facts do not depend on those tie-breaking choices.
* Python exceptions are modelled with `Except String`; a raised exception makes
  the surrounding computation return `.error`.
-/

namespace LITF

/-- Model of `src/models/component.py::Component`.  Fields not read by the
ordering engine (`metadata`, `description`, `integration_points`, the string
fields being carried around verbatim) are kept only where the engine reads
them.  `complexity_score` is a `float` defaulting to `0.0` in the dataclass;
it is never `None`. -/
structure Component where
  id : Nat
  name : String
  component_type : String
  location : String
  complexity_score : ℚ := 0
  importance_score : ℚ := 0
deriving Repr, DecidableEq, Inhabited

/-- Model of `Component.__eq__`: comparison by `id` alone. -/
def componentPyEq (x y : Component) : Bool := x.id == y.id

/-- Model of `Component.__hash__`: `hash(self.id)`, with the UUID hash
modelled injectively by the id itself. -/
def componentPyHash (c : Component) : Nat := c.id

/-- Model of `src/models/relationship.py::Relationship`. -/
structure Relationship where
  id : Nat
  source : Component
  target : Component
  relationship_type : String
  strength : ℚ := 1
deriving Repr, DecidableEq

/-- Ordered-dict insertion: update in place when the key is present,
append otherwise. -/
def dictInsert {α : Type} (k : Nat) (v : α) : List (Nat × α) → List (Nat × α)
  | [] => [(k, v)]
  | (k', v') :: rest =>
      if k = k' then (k, v) :: rest else (k', v') :: dictInsert k v rest

/-- Ordered-dict lookup. -/
def dictGet {α : Type} (k : Nat) : List (Nat × α) → Option α
  | [] => none
  | (k', v) :: rest => if k = k' then some v else dictGet k rest

/-- Append a node if absent (semantics of `nx.DiGraph.add_node` /
implicit node creation by `add_edge`). -/
def addNode (nodes : List Nat) (v : Nat) : List Nat :=
  if v ∈ nodes then nodes else nodes ++ [v]

/-- Insert or overwrite the `(u, v)` edge carrying a relationship attribute
(semantics of `nx.DiGraph.add_edge(u, v, relationship=r)`). -/
def edgeInsert (u v : Nat) (r : Relationship) :
    List (Nat × Nat × Relationship) → List (Nat × Nat × Relationship)
  | [] => [(u, v, r)]
  | (u', v', r') :: rest =>
      if u = u' ∧ v = v' then (u, v, r) :: rest
      else (u', v', r') :: edgeInsert u v r rest

/-- Model of `src/models/dependency_graph.py::DependencyGraph`: the two
id-keyed dicts plus the `networkx` digraph (node list and edge list with the
`relationship` edge attribute). -/
structure DependencyGraph where
  components : List (Nat × Component) := []
  relationships : List (Nat × Relationship) := []
  nodes : List Nat := []
  adj : List (Nat × Nat × Relationship) := []
deriving Repr, DecidableEq

namespace DependencyGraph

/-- Model of `DependencyGraph.add_component`. -/
def add_component (g : DependencyGraph) (c : Component) : DependencyGraph :=
  { g with
    components := dictInsert c.id c g.components
    nodes := addNode g.nodes c.id }

/-- Model of `DependencyGraph.add_relationship`.  Note: the source performs no
validation of the endpoints; `add_edge` implicitly creates missing nodes. -/
def add_relationship (g : DependencyGraph) (r : Relationship) : DependencyGraph :=
  { g with
    relationships := dictInsert r.id r g.relationships
    nodes := addNode (addNode g.nodes r.source.id) r.target.id
    adj := edgeInsert r.source.id r.target.id r g.adj }

/-- Model of `DependencyGraph.get_component`. -/
def get_component (g : DependencyGraph) (i : Nat) : Option Component :=
  dictGet i g.components

/-- Model of `DependencyGraph.get_components` (dict-value order). -/
def get_components (g : DependencyGraph) : List Component :=
  g.components.map Prod.snd

/-- Model of `DependencyGraph.get_relationships`. -/
def get_relationships (g : DependencyGraph) : List Relationship :=
  g.relationships.map Prod.snd

/-- Edge pairs of the `networkx` graph. -/
def edgePairs (g : DependencyGraph) : List (Nat × Nat) :=
  g.adj.map (fun e => (e.1, e.2.1))

/-- Model of `DependencyGraph.get_dependencies`: the `relationship` attribute
of each outgoing edge of the node, in adjacency order. -/
def get_dependencies (g : DependencyGraph) (c : Component) : List Relationship :=
  (g.adj.filter (fun e => e.1 = c.id)).map (fun e => e.2.2)

/-- Model of `DependencyGraph.get_dependents`: the `relationship` attribute of
each incoming edge of the node. -/
def get_dependents (g : DependencyGraph) (c : Component) : List Relationship :=
  (g.adj.filter (fun e => e.2.1 = c.id)).map (fun e => e.2.2)

end DependencyGraph

/-- Deduplication loop keeping first occurrences, tracking seen ids. -/
def dedupNatAux : List Nat → List Nat → List Nat
  | [], _ => []
  | x :: xs, seen =>
      if x ∈ seen then dedupNatAux xs seen else x :: dedupNatAux xs (x :: seen)

/-- Deduplicate a list of nats keeping first occurrences. -/
def dedupNat (l : List Nat) : List Nat := dedupNatAux l []

/-- Deduplication loop for components, by id, keeping first occurrences. -/
def dedupByIdAux : List Component → List Nat → List Component
  | [], _ => []
  | c :: cs, seen =>
      if c.id ∈ seen then dedupByIdAux cs seen
      else c :: dedupByIdAux cs (c.id :: seen)

/-- Deduplicate a list of components by id, keeping first occurrences
(the membership semantics of a Python set of components). -/
def dedupById (l : List Component) : List Component := dedupByIdAux l []

/-- Successors of `u` in an edge-pair list, in edge order. -/
def outTargets (edges : List (Nat × Nat)) (u : Nat) : List Nat :=
  (edges.filter (fun e => e.1 = u)).map Prod.snd

/-- One expansion step of forward reachability. -/
def reachStep (edges : List (Nat × Nat)) (acc : List Nat) : List Nat :=
  acc ++ dedupNat (((edges.filter (fun e => e.1 ∈ acc ∧ e.2 ∉ acc)).map Prod.snd))

/-- Iterated reachability expansion. -/
def reachAux (edges : List (Nat × Nat)) : Nat → List Nat → List Nat
  | 0, acc => acc
  | fuel + 1, acc => reachAux edges fuel (reachStep edges acc)

/-- Nodes reachable from `u` (including `u` itself), computed by `n`-fold
expansion where `n` bounds the node count. -/
def reachableFrom (edges : List (Nat × Nat)) (n : Nat) (u : Nat) : List Nat :=
  reachAux edges n [u]

/-- Model of `nx.descendants(G, u)`: nodes reachable from `u`, excluding `u`. -/
def descendants (nodes : List Nat) (edges : List (Nat × Nat)) (u : Nat) : List Nat :=
  (reachableFrom edges nodes.length u).filter (fun v => v ≠ u)

/-- The strongly connected component of `u` as a node list, in node order. -/
def sccOf (nodes : List Nat) (edges : List (Nat × Nat)) (u : Nat) : List Nat :=
  nodes.filter (fun v =>
    v ∈ reachableFrom edges nodes.length u ∧ u ∈ reachableFrom edges nodes.length v)

/-- Model of `nx.strongly_connected_components`: the list of SCCs, one per
class, each listed at the first of its members in node order. -/
def sccList (nodes : List Nat) (edges : List (Nat × Nat)) : List (List Nat) :=
  go nodes []
where
  go : List Nat → List Nat → List (List Nat)
    | [], _ => []
    | u :: rest, seen =>
        if u ∈ seen then go rest seen
        else
          let s := sccOf nodes edges u
          s :: go rest (seen ++ s)

/-- Full in-degree of a node (counting self-loops), the `G.in_degree()`
value used by `nx.topological_generations`. -/
def indegAll (edges : List (Nat × Nat)) (v : Nat) : Nat :=
  (edges.filter (fun e => e.2 = v)).length

/-- Lookup in the `indegree_map` association list. -/
def cntGet : List (Nat × Nat) → Nat → Option Nat
  | [], _ => none
  | p :: rest, v => if p.1 = v then some p.2 else cntGet rest v

/-- In-place update of one `indegree_map` entry. -/
def cntSet (counts : List (Nat × Nat)) (v n : Nat) : List (Nat × Nat) :=
  counts.map (fun p => if p.1 = v then (v, n) else p)

/-- Deletion of one `indegree_map` entry. -/
def cntRemove (counts : List (Nat × Nat)) (v : Nat) : List (Nat × Nat) :=
  counts.filter (fun p => p.1 ≠ v)

/-- Decrement loop over the successors of one processed parent
(`indegree_map[child] -= 1`, appending the child to the next generation when
its counter reaches zero). -/
def processTargets (counts : List (Nat × Nat)) (next : List Nat) :
    List Nat → List (Nat × Nat) × List Nat
  | [] => (counts, next)
  | v :: vs =>
      match cntGet counts v with
      | some n =>
          if n = 1 then processTargets (cntRemove counts v) (next ++ [v]) vs
          else processTargets (cntSet counts v (n - 1)) next vs
      | none => processTargets counts next vs

/-- Processing of one whole generation, discovering the next one. -/
def processGen (edges : List (Nat × Nat)) :
    List Nat → List (Nat × Nat) → List Nat → List (Nat × Nat) × List Nat
  | [], counts, next => (counts, next)
  | u :: us, counts, next =>
      let p := processTargets counts next (outTargets edges u)
      processGen edges us p.1 p.2

/-- The outer while-loop of `nx.topological_generations`: emit the current
zero-indegree generation, discover the next; a non-empty `indegree_map` at
the end means a cycle (`NetworkXUnfeasible`). -/
def topoGenRounds (edges : List (Nat × Nat)) :
    Nat → List (Nat × Nat) → List Nat → List Nat → Option (List Nat)
  | 0, counts, gen, acc =>
      if gen.isEmpty ∧ counts.isEmpty then some acc else none
  | fuel + 1, counts, gen, acc =>
      if gen.isEmpty then (if counts.isEmpty then some acc else none)
      else
        let p := processGen edges gen counts []
        topoGenRounds edges fuel p.1 p.2 (acc ++ gen)

/-- Model of `nx.topological_sort` (which flattens
`nx.topological_generations`): the first generation is the zero-indegree
nodes in node order, later generations are discovered in decrement order;
`none` models the `NetworkXUnfeasible` exception on a cyclic graph. -/
def topoSort (nodes : List Nat) (edges : List (Nat × Nat)) : Option (List Nat) :=
  let counts0 := nodes.filterMap (fun v =>
    let d := indegAll edges v
    if d > 0 then some (v, d) else none)
  let zero0 := nodes.filter (fun v => indegAll edges v = 0)
  topoGenRounds edges (nodes.length + 1) counts0 zero0 []

/-- Extension step of the simple-cycle search: `path` holds the nodes walked so
far (most recent first), all cycles closing back at `start` are produced. -/
def cyclesFromAux (edges : List (Nat × Nat)) (start : Nat) (allowed : List Nat) :
    Nat → Nat → List Nat → List (List Nat)
  | 0, _, _ => []
  | fuel + 1, cur, path =>
      (outTargets edges cur).flatMap (fun w =>
        if w = start then [path.reverse]
        else if w ∈ allowed ∧ w ∉ path then
          cyclesFromAux edges start allowed fuel w (w :: path)
        else [])

/-- Model of `nx.simple_cycles`: every elementary cycle listed once, starting
at its first node in node order (self-loops appear as singleton cycles). -/
def simpleCycles (nodes : List Nat) (edges : List (Nat × Nat)) : List (List Nat) :=
  go nodes
where
  go : List Nat → List (List Nat)
    | [] => []
    | v :: rest =>
        cyclesFromAux edges v (v :: rest) (nodes.length + 1) v [v] ++ go rest

/-- Edges of a cycle (as listed by `simpleCycles`): consecutive pairs plus the
closing pair, matching the `(cycle[i], cycle[(i+1) % len(cycle)])` walk. -/
def cycleEdges (cycle : List Nat) : List (Nat × Nat) :=
  match cycle with
  | [] => []
  | v :: rest => (cycle.zip (rest ++ [v]))

/-- Model of the metrics dict produced by
`TestOrderGenerator.calculate_metrics` (`src/strategy/test_order/base.py`).
The Python key `"stub_component_ratio"` is modelled by the field
`stub_component_share`. -/
structure Metrics where
  total_stub_count : ℚ
  components_with_stubs : ℚ
  average_stubs_per_component : ℚ
  stub_component_share : ℚ
deriving Repr, DecidableEq, Inhabited

/-- Model of `src/strategy/test_order/base.py::TestOrderResult`.  The
`stubs` dict maps components (id-keyed) to stub sets, modelled as id-dedup
lists; `level_assignments` maps components to levels. -/
structure TestOrderResult where
  order : List Component
  stubs : List (Component × List Component)
  justification : List String
  metrics : Metrics
  level_assignments : List (Component × Nat)
deriving Repr, DecidableEq, Inhabited

/-- Lookup in a component-keyed dict (Python hashing is by component id). -/
def stubsGet (stubs : List (Component × List Component)) (c : Component) :
    List Component :=
  match stubs.find? (fun p => p.1.id = c.id) with
  | some p => p.2
  | none => []

/-- Add a component to an id-keyed set, modelled as append-if-absent. -/
def setAdd (s : List Component) (d : Component) : List Component :=
  if s.any (fun x => x.id = d.id) then s else s ++ [d]

/-- Update the stub set bound to `c` in the stubs dict. -/
def stubsUpdate (stubs : List (Component × List Component)) (c : Component)
    (f : List Component → List Component) :
    List (Component × List Component) :=
  stubs.map (fun p => if p.1.id = c.id then (p.1, f p.2) else p)

namespace Base

/-- Model of the set `{rel.target for rel in get_dependencies(component)}`. -/
def dependencyTargets (g : DependencyGraph) (c : Component) : List Component :=
  dedupById ((g.get_dependencies c).map Relationship.target)

/-- Inner loop of `TestOrderGenerator.calculate_required_stubs`: walk the
order keeping the `tested` id set, adding un-tested dependencies as stubs. -/
def requiredStubsWalk (g : DependencyGraph) :
    List Component → List Nat → List (Component × List Component) →
    List (Component × List Component)
  | [], _, stubs => stubs
  | c :: rest, tested, stubs =>
      let deps := dependencyTargets g c
      let stubs' := deps.foldl
        (fun acc d => if d.id ∈ tested then acc else stubsUpdate acc c (fun s => setAdd s d))
        stubs
      requiredStubsWalk g rest (tested ++ [c.id]) stubs'

/-- Model of `TestOrderGenerator.calculate_required_stubs`
(`src/strategy/test_order/base.py`, lines 38-54). -/
def calculate_required_stubs (g : DependencyGraph) (order : List Component) :
    List (Component × List Component) :=
  requiredStubsWalk g order [] ((g.get_components).map (fun c => (c, [])))

/-- Model of `TestOrderGenerator.calculate_metrics`
(`src/strategy/test_order/base.py`, lines 56-66). -/
def calculate_metrics (g : DependencyGraph)
    (stubs : List (Component × List Component)) : Metrics :=
  let total : ℚ := ((stubs.map (fun p => p.2.length)).sum : ℕ)
  let withStubs : ℚ := ((stubs.filter (fun p => ¬ p.2.isEmpty)).length : ℕ)
  let n := (g.get_components).length
  { total_stub_count := total
    components_with_stubs := withStubs
    average_stubs_per_component := if n ≠ 0 then total / (n : ℚ) else 0
    stub_component_share := if n ≠ 0 then withStubs / (n : ℚ) else 0 }

/-- Model of `TestOrderGenerator.validate_order`
(`src/strategy/test_order/base.py`, lines 68-81): the order must contain the
same id set as the component list and have no duplicates. -/
def validate_order (g : DependencyGraph) (order : List Component) : Bool :=
  let orderIds := dedupNat (order.map Component.id)
  let compIds := dedupNat ((g.get_components).map Component.id)
  (orderIds.all (fun i => i ∈ compIds) ∧ compIds.all (fun i => i ∈ orderIds))
    ∧ order.length = orderIds.length

/-- Model of `TestOrderGenerator.get_component_dependencies` (the target set
of the outgoing relationships). -/
def get_component_dependencies (g : DependencyGraph) (c : Component) :
    List Component :=
  dedupById ((g.get_dependencies c).map Relationship.target)

/-- Model of `TestOrderGenerator.get_component_dependents` (the source set of
the incoming relationships). -/
def get_component_dependents (g : DependencyGraph) (c : Component) :
    List Component :=
  dedupById ((g.get_dependents c).map Relationship.source)

/-- Model of `TestOrderGenerator.get_dependency_count`. -/
def get_dependency_count (g : DependencyGraph) (c : Component) : Nat :=
  (get_component_dependencies g c).length

/-- Model of `TestOrderGenerator.get_dependent_count`. -/
def get_dependent_count (g : DependencyGraph) (c : Component) : Nat :=
  (get_component_dependents g c).length

/-- Model of `TestOrderGenerator.create_result`. -/
def create_result (g : DependencyGraph) (order : List Component)
    (stubs : List (Component × List Component)) (justification : List String)
    (level_assignments : List (Component × Nat)) : TestOrderResult :=
  { order := order
    stubs := stubs
    justification := justification
    metrics := calculate_metrics g stubs
    level_assignments := level_assignments }

end Base

/-- Stable insertion of `x` into a sorted list: `x` is placed before the first
element it is strictly below, hence after earlier equal keys. -/
def insertStable {α : Type} (lt : α → α → Bool) (x : α) : List α → List α
  | [] => [x]
  | y :: ys => if lt x y then x :: y :: ys else y :: insertStable lt x ys

/-- Stable sort by a strict comparator (the behaviour of Python `sorted`). -/
def stableSort {α : Type} (lt : α → α → Bool) (l : List α) : List α :=
  l.foldl (fun acc x => insertStable lt x acc) []

/-- Lexicographic strict comparison of 4-tuples of rationals, the order Python
uses on the sort-key tuples below. -/
def tupleLt (a b : ℚ × ℚ × ℚ × ℚ) : Bool :=
  if a.1 ≠ b.1 then a.1 < b.1
  else if a.2.1 ≠ b.2.1 then a.2.1 < b.2.1
  else if a.2.2.1 ≠ b.2.2.1 then a.2.2.1 < b.2.2.1
  else a.2.2.2 < b.2.2.2

/-- Join component names with `", "` (the `", ".join(...)` pattern of the
justification builders), with the `"none"` fallback for an empty list. -/
def joinNames (cs : List Component) : String :=
  if cs.isEmpty then "none" else String.intercalate ", " (cs.map Component.name)

namespace TaiDaniels

/-- Model of `TaiDanielsOrderGenerator.relationship_weights` with the
`.get(type, 1.0)` default. -/
def relationship_weight (t : String) : ℚ :=
  if t = "inheritance" then 3 else if t = "aggregation" then 2 else 1

/-- Entry of the nested `weighted_deps` defaultdict: accumulated
`weight * strength` for the `(source, target)` id pair
(`_calculate_weighted_dependencies`, `tai_daniels.py` lines 55-63). -/
def wdep (rels : List Relationship) (s t : Nat) : ℚ :=
  ((rels.filter (fun r => r.source.id = s ∧ r.target.id = t)).map
    (fun r => relationship_weight r.relationship_type * r.strength)).sum

/-- Keys of `weighted_deps[source]` in insertion order: the distinct target
ids of the relationships leaving `source`. -/
def wtargets (rels : List Relationship) (s : Nat) : List Nat :=
  dedupNat ((rels.filter (fun r => r.source.id = s)).map (fun r => r.target.id))

/-- Value of `sum(weighted_deps[c].values())`. -/
def wsum (rels : List Relationship) (s : Nat) : ℚ :=
  ((wtargets rels s).map (wdep rels s)).sum

/-- The `has_unassigned_deps` test of `_assign_levels`
(`tai_daniels.py` lines 78-83). -/
def hasUnassignedDeps (rels : List Relationship) (assigned : List Nat)
    (c : Component) : Bool :=
  (wtargets rels c.id).any (fun d => d ∉ assigned ∧ wdep rels c.id d > 0)

/-- The `unassigned_deps` count of the cycle fallback
(`tai_daniels.py` lines 96-99). -/
def unresolvedCount (rels : List Relationship) (assigned : List Nat)
    (s : Nat) : Nat :=
  ((wtargets rels s).filter (fun d => d ∉ assigned ∧ wdep rels s d > 0)).length

/-- The cycle fallback of `_assign_levels` (`tai_daniels.py` lines 88-106):
the first unassigned component with the strictly fewest unresolved weighted
dependencies. -/
def cycleFallback (comps : List Component) (rels : List Relationship)
    (assigned : List Nat) : Option Component :=
  go comps none
where
  go : List Component → Option (Component × Nat) → Option Component
    | [], best => best.map Prod.fst
    | c :: rest, best =>
        if c.id ∈ assigned then go rest best
        else
          let cnt := unresolvedCount rels assigned c.id
          match best with
          | none => go rest (some (c, cnt))
          | some (b, bc) => if cnt < bc then go rest (some (c, cnt)) else go rest (some (b, bc))

/-- One iteration body of the `_assign_levels` while-loop: the components put
into the current level. -/
def step (comps : List Component) (rels : List Relationship)
    (assigned : List Nat) : List Component :=
  let ready := comps.filter
    (fun c => c.id ∉ assigned ∧ ¬ hasUnassignedDeps rels assigned c)
  if ready.isEmpty then
    match cycleFallback comps rels assigned with
    | some c => [c]
    | none => []
  else ready

/-- Fuel-bounded model of the `_assign_levels` while-loop
(`tai_daniels.py` lines 65-113); `comps.length` iterations always suffice
because every iteration assigns at least one component (proved below). -/
def assignLevelsAux (comps : List Component) (rels : List Relationship) :
    Nat → List Nat → Nat → List (Nat × List Component)
  | 0, _, _ => []
  | fuel + 1, assigned, lvl =>
      if assigned.length < comps.length then
        let lc := step comps rels assigned
        (lvl, lc) :: assignLevelsAux comps rels fuel (assigned ++ lc.map Component.id) (lvl + 1)
      else []

/-- Model of `TaiDanielsOrderGenerator._assign_levels`. -/
def assign_levels (comps : List Component) (rels : List Relationship) :
    List (Nat × List Component) :=
  assignLevelsAux comps rels comps.length [] 0

/-- The sort key of `_order_within_levels` (`tai_daniels.py` lines 127-135). -/
def sortKey (g : DependencyGraph) (rels : List Relationship) (c : Component) :
    ℚ × ℚ × ℚ × ℚ :=
  (-(wsum rels c.id), -((Base.get_dependent_count g c : ℕ) : ℚ),
   -c.complexity_score, -c.importance_score)

/-- Model of `TaiDanielsOrderGenerator._order_within_levels`: per-level stable
sort by the coupling key, concatenated in level order. -/
def order_within_levels (g : DependencyGraph) (rels : List Relationship)
    (levels : List (Nat × List Component)) : List Component :=
  levels.flatMap (fun p =>
    stableSort (fun a b => tupleLt (sortKey g rels a) (sortKey g rels b)) p.2)

/-- The per-component lines of `_generate_justification`
(`tai_daniels.py` lines 167-175). -/
def perComponentLines (g : DependencyGraph)
    (stubs : List (Component × List Component)) :
    Nat → List Component → List String
  | _, [] => []
  | i, c :: rest =>
      (toString (i + 1) ++ ". Testing " ++ c.name ++ " - Dependencies: "
        ++ joinNames (Base.get_component_dependencies g c)
        ++ " - Required stubs: " ++ joinNames (stubsGet stubs c))
        :: perComponentLines g stubs (i + 1) rest

/-- Model of `TaiDanielsOrderGenerator._generate_justification`
(`tai_daniels.py` lines 141-177). -/
def generate_justification (g : DependencyGraph) (order : List Component)
    (levels : List (Nat × List Component))
    (stubs : List (Component × List Component)) : List String :=
  let totalStubs := (stubs.map (fun p => p.2.length)).sum
  let withStubs := (stubs.filter (fun p => ¬ p.2.isEmpty)).length
  ["Test order generated using Tai-Daniels algorithm with "
      ++ toString levels.length ++ " levels",
   "Components ordered based on relationship types (inheritance: 3, aggregation: 2, association: 1)"]
  ++ levels.map (fun p =>
      "Level " ++ toString p.1 ++ ": " ++ toString p.2.length ++ " components")
  ++ ["Total stubs required: " ++ toString totalStubs,
      "Components requiring stubs: " ++ toString withStubs]
  ++ perComponentLines g stubs 0 order

/-- Model of `TaiDanielsOrderGenerator.generate_order`
(`tai_daniels.py` lines 30-53). -/
def generate_order (g : DependencyGraph) : TestOrderResult :=
  let comps := g.get_components
  let rels := g.get_relationships
  let levels := assign_levels comps rels
  let level_assignments :=
    levels.flatMap (fun p => p.2.map (fun c => (c, p.1)))
  let ordered := order_within_levels g rels levels
  let stubs := Base.calculate_required_stubs g ordered
  let justification := generate_justification g ordered levels stubs
  Base.create_result g ordered stubs justification level_assignments

end TaiDaniels

/-- Model of `DependencyGraph.get_strongly_connected_components`: the SCC
node sets resolved to components.  The source indexes `self.components`
directly (a `KeyError` on an unregistered node); the well-formed graphs the
theorems quantify over have every node registered, and the resolution is
modelled with `filterMap`. -/
def DependencyGraph.get_strongly_connected_components (g : DependencyGraph) :
    List (List Component) :=
  (sccList g.nodes g.edgePairs).map (fun s => s.filterMap g.get_component)

/-- Acyclicity test used by `_is_acyclic` (via `nx.find_cycle`). -/
def isAcyclicEdges (nodes : List Nat) (edges : List (Nat × Nat)) : Bool :=
  (simpleCycles nodes edges).isEmpty

/-- Remove the first occurrence of an edge pair
(`nx.DiGraph.remove_edge`; edge lists of `nx` graphs hold each pair once). -/
def removeEdge (edges : List (Nat × Nat)) (e : Nat × Nat) : List (Nat × Nat) :=
  match edges with
  | [] => []
  | e' :: rest => if e' = e then rest else e' :: removeEdge rest e

/-- Remove a list of edge pairs, first occurrences each. -/
def removeEdges (edges : List (Nat × Nat)) (es : List (Nat × Nat)) :
    List (Nat × Nat) :=
  es.foldl removeEdge edges

/-- Ordered tally of how many cycles each edge participates in: the
`edge_cycle_count` dict, keys in first-encounter order
(`tjjm.py` lines 107-112). -/
def edgeCycleCounts (cycles : List (List Nat)) (edges : List (Nat × Nat)) :
    List ((Nat × Nat) × Nat) :=
  cycles.foldl
    (fun acc cyc =>
      (cycleEdges cyc).foldl
        (fun acc2 e =>
          if e ∈ edges then bump acc2 e else acc2)
        acc)
    []
where
  bump : List ((Nat × Nat) × Nat) → (Nat × Nat) → List ((Nat × Nat) × Nat)
    | [], e => [(e, 1)]
    | (e', n) :: rest, e =>
        if e' = e then (e', n + 1) :: rest else (e', n) :: bump rest e

/-- The selection fold of `TJJMOrderGenerator._select_edge_to_break`
(`tjjm.py` lines 117-131): strict maximum of the cycle count, ties resolved by
strictly smaller descendant impact, first encounter winning remaining ties. -/
def selectBestCounted (nodes : List Nat) (edges : List (Nat × Nat))
    (counts : List ((Nat × Nat) × Nat)) : Option (Nat × Nat) :=
  go counts none 0 none
where
  go : List ((Nat × Nat) × Nat) → Option (Nat × Nat) → Nat → Option Nat →
      Option (Nat × Nat)
    | [], best, _, _ => best
    | (e, cnt) :: rest, best, maxCycles, minImpact =>
        let impact := (descendants nodes edges e.2).length
        let takeIt : Bool := (cnt > maxCycles : Bool) ||
          ((cnt == maxCycles) && (match minImpact with
            | none => true
            | some m => (impact < m : Bool)))
        if takeIt then go rest (some e) cnt (some impact)
        else go rest best maxCycles minImpact

namespace TJJM

/-- Model of `TJJMOrderGenerator._select_edge_to_break`. -/
def select_edge_to_break (nodes : List Nat) (edges : List (Nat × Nat)) :
    Option (Nat × Nat) :=
  let cycles := simpleCycles nodes edges
  if cycles.isEmpty then none
  else
    let counts := edgeCycleCounts cycles edges
    if counts.isEmpty then none
    else selectBestCounted nodes edges counts

/-- The while-loop of `TJJMOrderGenerator._find_edges_to_break_cycle`
(`tjjm.py` lines 90-98), fuel-bounded by the edge count (each iteration
removes one edge). -/
def breakLoop (nodes : List Nat) :
    Nat → List (Nat × Nat) → List (Nat × Nat) → List (Nat × Nat)
  | 0, _, acc => acc
  | fuel + 1, edges, acc =>
      if isAcyclicEdges nodes edges then acc
      else
        match select_edge_to_break nodes edges with
        | none => acc
        | some e => breakLoop nodes fuel (removeEdge edges e) (acc ++ [e])

/-- Model of `TJJMOrderGenerator._find_edges_to_break_cycle` on one SCC: the
induced subgraph is copied and edges are removed until it is acyclic. -/
def find_edges_to_break_cycle (g : DependencyGraph) (sccIds : List Nat) :
    List (Nat × Nat) :=
  let subEdges := (g.edgePairs).filter (fun e => e.1 ∈ sccIds ∧ e.2 ∈ sccIds)
  breakLoop sccIds (subEdges.length + 1) subEdges []

/-- Resolution of a node-id order to components
(`[get_component(i) for i in node_order]`); a missing component would make the
Python crash on first use, modelled as an error. -/
def resolveOrder (g : DependencyGraph) (ids : List Nat) :
    Except String (List Component) :=
  match ids.mapM g.get_component with
  | some cs => .ok cs
  | none => .error "AttributeError: component lookup returned None"

/-- Model of `TJJMOrderGenerator._assign_levels`: level = position in the
order. -/
def assign_levels (order : List Component) : List (Component × Nat) :=
  order.enum.map (fun p => (p.2, p.1))

/-- Model of `TJJMOrderGenerator.generate_order` (`tjjm.py` lines 21-82). -/
def generate_order (g : DependencyGraph) : Except String TestOrderResult := do
  let sccs := g.get_strongly_connected_components
  let justification0 :=
    ["Found " ++ toString sccs.length ++ " strongly connected components"]
  if sccs.all (fun scc => scc.length = 1) then
    match topoSort g.nodes g.edgePairs with
    | none => .error "Graph contains cycles, cannot perform topological sort"
    | some nodeOrder => do
        let order := (← resolveOrder g nodeOrder).reverse
        let stubs := Base.calculate_required_stubs g order
        let justification := justification0 ++ ["No cycles found, using topological sort"]
        return Base.create_result g order stubs justification (assign_levels order)
  else
    let nontrivial := sccs.filter (fun scc => scc.length > 1)
    let removalInfo := nontrivial.map (fun scc =>
      (scc.length, find_edges_to_break_cycle g (scc.map Component.id)))
    let edges_to_remove := removalInfo.flatMap Prod.snd
    let justification1 := justification0 ++ removalInfo.map (fun p =>
      "Breaking cycle in SCC of size " ++ toString p.1 ++ " by removing "
        ++ toString p.2.length ++ " edges")
    let modified := removeEdges g.edgePairs edges_to_remove
    match topoSort g.nodes modified with
    | none => .error "Modified graph still contains cycles"
    | some nodeOrder => do
        let order := (← resolveOrder g nodeOrder.reverse)
        let stubs := order.map (fun c =>
          (c, dedupById ((edges_to_remove.filter (fun e => e.1 = c.id)).filterMap
                (fun e => g.get_component e.2))))
        let totalStubs := (stubs.map (fun p => p.2.length)).sum
        let justification := justification1 ++
          ["Final order requires " ++ toString totalStubs ++ " stubs"]
        return Base.create_result g order stubs justification (assign_levels order)

end TJJM

/-- The exception raised by every call of the form
`dependency_graph.get_relationship(source, target)` in `blw.py` (lines 122 and
166) and `test_order_selector.py` (line 113):
`DependencyGraph.get_relationship` is declared with a single
`relationship_id` parameter, so passing two arguments is a `TypeError`. -/
def typeErrorGetRelationship : String :=
  "TypeError: get_relationship() takes 2 positional arguments but 3 were given"

namespace BLW

/-- Model of `BLWOrderGenerator._calculate_stub_complexity`
(`blw.py` lines 154-173).  The base complexity is read first (the
`is not None` guard is dead: `complexity_score` is a float defaulting to 0.0),
then `get_relationship(source, target)` raises the arity `TypeError` before
the type multiplier can be applied. -/
def calculate_stub_complexity (_g : DependencyGraph)
    (_source _target : Component) : Except String ℚ :=
  .error typeErrorGetRelationship

/-- Model of `BLWOrderGenerator._select_edge_to_break` (`blw.py` lines
107-152): with no cycles it returns `None`; otherwise building `edge_info`
for the first cycle edge calls `get_relationship(source, target)` and raises
the arity `TypeError`. -/
def select_edge_to_break (_g : DependencyGraph) (nodes : List Nat)
    (edges : List (Nat × Nat)) : Except String (Option (Nat × Nat)) :=
  let cycles := simpleCycles nodes edges
  if cycles.isEmpty then .ok none
  else if (cycles.flatMap cycleEdges).any (fun e => e ∈ edges) then
    .error typeErrorGetRelationship
  else .ok none

/-- The while-loop of `BLWOrderGenerator._find_edges_to_break_cycle`
(`blw.py` lines 97-103). -/
def breakLoop (g : DependencyGraph) (nodes : List Nat) :
    Nat → List (Nat × Nat) → List (Nat × Nat) →
    Except String (List (Nat × Nat))
  | 0, _, acc => .ok acc
  | fuel + 1, edges, acc =>
      if isAcyclicEdges nodes edges then .ok acc
      else do
        match ← select_edge_to_break g nodes edges with
        | none => .ok acc
        | some e => breakLoop g nodes fuel (removeEdge edges e) (acc ++ [e])

/-- Model of `BLWOrderGenerator._find_edges_to_break_cycle`. -/
def find_edges_to_break_cycle (g : DependencyGraph) (sccIds : List Nat) :
    Except String (List (Nat × Nat)) :=
  let subEdges := (g.edgePairs).filter (fun e => e.1 ∈ sccIds ∧ e.2 ∈ sccIds)
  breakLoop g sccIds (subEdges.length + 1) subEdges []

/-- The stub construction of `BLWOrderGenerator.generate_order` step 6
(`blw.py` lines 62-71), accumulating the total stub complexity. -/
def stubsAndComplexity (g : DependencyGraph) (ets : List (Nat × Nat)) :
    List Component → Except String (List (Component × List Component) × ℚ)
  | [] => .ok ([], 0)
  | c :: rest => do
      let tcs := (ets.filter (fun e => e.1 = c.id)).filterMap
        (fun e => g.get_component e.2)
      let compl ← tcs.foldlM (fun acc tc => do
        let x ← calculate_stub_complexity g c tc
        pure (acc + x)) (0 : ℚ)
      let (restStubs, restCompl) ← stubsAndComplexity g ets rest
      return ((c, dedupById tcs) :: restStubs, compl + restCompl)

/-- Model of `BLWOrderGenerator.generate_order` (`blw.py` lines 22-84). -/
def generate_order (g : DependencyGraph) : Except String TestOrderResult := do
  let sccs := g.get_strongly_connected_components
  let justification0 :=
    ["Found " ++ toString sccs.length ++ " strongly connected components"]
  if sccs.all (fun scc => scc.length = 1) then
    match topoSort g.nodes g.edgePairs with
    | none => .error "Graph contains cycles, cannot perform topological sort"
    | some nodeOrder => do
        let order := (← TJJM.resolveOrder g nodeOrder).reverse
        let stubs := Base.calculate_required_stubs g order
        let justification := justification0 ++ ["No cycles found, using topological sort"]
        return Base.create_result g order stubs justification (TJJM.assign_levels order)
  else
    let nontrivial := sccs.filter (fun scc => scc.length > 1)
    let removalInfo ← nontrivial.mapM (fun scc => do
      let es ← find_edges_to_break_cycle g (scc.map Component.id)
      return (scc.length, es))
    let edges_to_remove := removalInfo.flatMap Prod.snd
    let justification1 := justification0 ++ removalInfo.map (fun p =>
      "Breaking cycle in SCC of size " ++ toString p.1 ++ " by removing "
        ++ toString p.2.length ++ " edges")
    let modified := removeEdges g.edgePairs edges_to_remove
    match topoSort g.nodes modified with
    | none => .error "Modified graph still contains cycles"
    | some nodeOrder => do
        let order ← TJJM.resolveOrder g nodeOrder.reverse
        let (stubs, totalCompl) ← stubsAndComplexity g edges_to_remove order
        let justification := justification1 ++
          ["Final order requires " ++ toString edges_to_remove.length
            ++ " stubs with total complexity score: " ++ toString totalCompl]
        return Base.create_result g order stubs justification (TJJM.assign_levels order)

end BLW

namespace MDTOG

/-- Model of `MDTOGOrderGenerator.relationship_weights` with the
`.get(type, 1.0)` default (the weights are stored on the edges but never read
downstream). -/
def relationship_weight (t : String) : ℚ :=
  if t = "inheritance" then 3 else if t = "aggregation" then 2 else 1

/-- Node list of `_create_weighted_graph` (`mdtog.py` lines 58-71): every
component, then any relationship endpoint not yet present (nodes are Python
`Component` objects hashed by id, modelled by their ids). -/
def weightedNodes (g : DependencyGraph) : List Nat :=
  (g.get_relationships).foldl
    (fun acc r => addNode (addNode acc r.source.id) r.target.id)
    ((g.get_components).map Component.id)

/-- Edge pairs of `_create_weighted_graph`; re-adding an existing edge only
overwrites the (unused) weight attribute. -/
def weightedEdges (g : DependencyGraph) : List (Nat × Nat) :=
  (g.get_relationships).foldl
    (fun acc r =>
      if (r.source.id, r.target.id) ∈ acc then acc
      else acc ++ [(r.source.id, r.target.id)])
    []

/-- Index of the SCC containing a node, for `nx.condensation`. -/
def sccIndexOf (sccs : List (List Nat)) (u : Nat) : Option Nat :=
  (sccs.enum.find? (fun p => u ∈ p.2)).map Prod.fst

/-- Edge pairs of the condensation DAG: one edge per pair of distinct SCC
indices joined by a graph edge. -/
def condensationEdges (sccs : List (List Nat)) (edges : List (Nat × Nat)) :
    List (Nat × Nat) :=
  edges.foldl
    (fun acc e =>
      match sccIndexOf sccs e.1, sccIndexOf sccs e.2 with
      | some i, some j =>
          if i ≠ j ∧ (i, j) ∉ acc then acc ++ [(i, j)] else acc
      | _, _ => acc)
    []

/-- The exception raised by `MDTOGOrderGenerator._find_minimum_feedback_arc_set`
on any cyclic subgraph: it calls `graph.remove_edge` on the *frozen*
`graph.subgraph(scc)` view handed to it by `_break_cycles_and_order`
(`mdtog.py` lines 95-96 and 124), which `networkx >= 2` forbids. -/
def frozenError : String := "NetworkXError: Frozen graph cannot be modified"

/-- Model of `MDTOGOrderGenerator._break_cycles_and_order`
(`mdtog.py` lines 73-113): SCCs are visited in condensation topological
order; singleton SCCs are appended (guarded by the `processed` set); a
non-singleton SCC reaches the frozen-subgraph mutation and raises. -/
def break_cycles_and_order (g : DependencyGraph) (sccs : List (List Nat))
    (edges : List (Nat × Nat)) : Except String (List Component) :=
  match topoSort (List.range sccs.length) (condensationEdges sccs edges) with
  | none => .error "unreachable: the condensation is acyclic"
  | some order => go order [] []
where
  go : List Nat → List Nat → List Component → Except String (List Component)
    | [], _, acc => .ok acc
    | sccId :: rest, processed, acc =>
        match sccs.getD sccId [] with
        | [u] =>
            if u ∈ processed then go rest processed acc
            else
              match g.get_component u with
              | some c => go rest (processed ++ [u]) (acc ++ [c])
              | none => .error "AttributeError: component lookup returned None"
        | _ => .error frozenError

/-- Model of `MDTOGOrderGenerator._assign_levels` (`mdtog.py` lines 138-153):
level = 1 + the maximum level among already-levelled predecessors in the
weighted graph, starting from -1. -/
def assign_levels (edges : List (Nat × Nat)) (ordered : List Component) :
    List (Component × Nat) :=
  go ordered []
where
  go : List Component → List (Component × Nat) → List (Component × Nat)
    | [], acc => acc
    | c :: rest, acc =>
        let preds := (edges.filter (fun e => e.2 = c.id)).map Prod.fst
        let predLevels := acc.filterMap
          (fun p => if p.1.id ∈ preds then some p.2 else none)
        let lvl := match predLevels with
          | [] => 0
          | ls => (ls.foldl Nat.max 0) + 1
        go rest (acc ++ [(c, lvl)])

/-- Model of `MDTOGOrderGenerator._generate_justification`
(`mdtog.py` lines 155-193). -/
def generate_justification (g : DependencyGraph) (order : List Component)
    (sccs : List (List Nat)) (stubs : List (Component × List Component)) :
    List String :=
  let totalStubs := (stubs.map (fun p => p.2.length)).sum
  let withStubs := (stubs.filter (fun p => ¬ p.2.isEmpty)).length
  ["Test order generated using MDTOG algorithm",
   "Found " ++ toString sccs.length ++ " strongly connected components"]
  ++ (sccs.enum.filterMap (fun p =>
      if p.2.length > 1 then
        some ("SCC " ++ toString (p.1 + 1) ++ ": " ++ toString p.2.length
          ++ " components - "
          ++ String.intercalate ", " ((p.2.filterMap g.get_component).map Component.name))
      else none))
  ++ ["Total stubs required: " ++ toString totalStubs,
      "Components requiring stubs: " ++ toString withStubs]
  ++ TaiDaniels.perComponentLines g stubs 0 order

/-- Model of `MDTOGOrderGenerator.generate_order` (`mdtog.py` lines 31-56). -/
def generate_order (g : DependencyGraph) : Except String TestOrderResult := do
  let wnodes := weightedNodes g
  let wedges := weightedEdges g
  let sccs := sccList wnodes wedges
  let ordered ← break_cycles_and_order g sccs wedges
  let stubs := Base.calculate_required_stubs g ordered
  let level_assignments := assign_levels wedges ordered
  let justification := generate_justification g ordered sccs stubs
  return Base.create_result g ordered stubs justification level_assignments

end MDTOG

/-- Model of `src/strategy/test_order_selector.py::AlgorithmComparison`. -/
structure AlgorithmComparison where
  algorithm_name : String
  total_stubs : Nat
  stub_complexity : ℚ
  test_sequence_quality : ℚ
  suitability_score : ℚ
  justification : List String
deriving Repr, DecidableEq

namespace Selector

/-- Model of `nx.density` on the selector graph: `m / (n (n-1))` for a
directed graph, `0` when `n <= 1` or `m = 0`. -/
def graphDensity (g : DependencyGraph) : ℚ :=
  let n := g.nodes.length
  let m := g.adj.length
  if n ≤ 1 ∨ m = 0 then 0 else (m : ℚ) / ((n : ℚ) * ((n : ℚ) - 1))

/-- Edge indicator of the selector graph, self-loops excluded, for the
clustering coefficient. -/
def eInd (g : DependencyGraph) (u v : Nat) : ℚ :=
  if u ≠ v ∧ (u, v) ∈ g.edgePairs then 1 else 0

/-- Model of `nx.clustering` for one node of a directed graph (the Fagiolo
coefficient used by `nx.average_clustering`). -/
def clusteringCoeff (g : DependencyGraph) (u : Nat) : ℚ :=
  let b : Nat → Nat → ℚ := fun x y => eInd g x y + eInd g y x
  let t : ℚ := ((g.nodes.map (fun v =>
      if v = u then 0 else
        ((g.nodes.map (fun w =>
            if w = u ∨ w = v then 0 else b u v * b u w * b v w)).sum))).sum) / 2
  let dtot : ℚ := (g.nodes.map (fun v => if v = u then 0 else b u v)).sum
  let dbi : ℚ := (g.nodes.map (fun v =>
      if v ≠ u ∧ eInd g u v = 1 ∧ eInd g v u = 1 then 1 else 0)).sum
  let denom := dtot * (dtot - 1) - 2 * dbi
  if denom = 0 then 0 else t / (2 * denom)

/-- Model of `nx.average_clustering` on the selector graph; on an empty graph
the mean raises `ZeroDivisionError`. -/
def averageClustering (g : DependencyGraph) : Except String ℚ :=
  if g.nodes.isEmpty then .error "ZeroDivisionError: division by zero"
  else .ok (((g.nodes.map (clusteringCoeff g)).sum) / (g.nodes.length : ℚ))

/-- Model of `TestOrderSelector._calculate_stub_complexity`
(`test_order_selector.py` lines 103-122): the nested loop returns `0.0` when
every stub set is empty; the first stub reaches the two-argument
`get_relationship` call and raises the arity `TypeError`. -/
def calculate_stub_complexity (_g : DependencyGraph) (result : TestOrderResult) :
    Except String ℚ :=
  if result.stubs.any (fun p => ¬ p.2.isEmpty) then .error typeErrorGetRelationship
  else .ok 0

/-- Model of `TestOrderSelector._evaluate_test_sequence`
(`test_order_selector.py` lines 124-156). -/
def evaluate_test_sequence (g : DependencyGraph) (result : TestOrderResult) :
    Except String ℚ :=
  if result.order.isEmpty then .ok 0
  else
    let ls := result.level_assignments.map Prod.snd
    if ls.isEmpty then .error "ValueError: max() arg is an empty sequence"
    else
      let maxLevel := ls.foldl Nat.max 0
      let nOrder : ℚ := (result.order.length : ℚ)
      let avg : ℚ := nOrder / ((maxLevel : ℚ) + 1)
      let balanceSum : ℚ :=
        ((List.range (maxLevel + 1)).map (fun l => |((ls.count l : ℚ)) - avg|)).sum
      let levelBalance : ℚ := 1 - balanceSum / nOrder
      let depCounts := result.order.map (fun c =>
        let deps := g.get_dependencies c
        (deps.length,
         (deps.filter (fun r =>
            ¬ (stubsGet result.stubs c).any (fun s => s.id = r.target.id))).length))
      let totalDeps : ℚ := ((depCounts.map Prod.fst).sum : ℕ)
      let preserved : ℚ := ((depCounts.map Prod.snd).sum : ℕ)
      let depScore : ℚ := if totalDeps > 0 then preserved / totalDeps else 1
      .ok ((levelBalance + depScore) / 2)

/-- Model of `TestOrderSelector._calculate_suitability`
(`test_order_selector.py` lines 158-188); the bare `except` around
`nx.average_clustering` maps any exception to `0`. -/
def calculate_suitability (g : DependencyGraph) (name : String) : ℚ :=
  let density := graphDensity g
  let avgc := match averageClustering g with
    | .ok v => v
    | .error _ => 0
  if name = "Tai-Daniels" then (1 - density) * (6/10) + (1 - avgc) * (4/10)
  else if name = "TJJM" then density * (4/10) + avgc * (6/10)
  else if name = "BLW" then density * (5/10) + avgc * (5/10)
  else 1/2

/-- Model of `TestOrderSelector._evaluate_algorithm`
(`test_order_selector.py` lines 80-101).  The ``:.2f`` float formatting of
the justification strings is modelled by `toString` on `ℚ`. -/
def evaluate_algorithm (g : DependencyGraph) (name : String)
    (result : TestOrderResult) : Except String AlgorithmComparison := do
  let totalStubs := (result.stubs.map (fun p => p.2.length)).sum
  let stubComplexity ← calculate_stub_complexity g result
  let quality ← evaluate_test_sequence g result
  let suitability := calculate_suitability g name
  return {
    algorithm_name := name
    total_stubs := totalStubs
    stub_complexity := stubComplexity
    test_sequence_quality := quality
    suitability_score := suitability
    justification :=
      ["Total stubs required: " ++ toString totalStubs,
       "Overall stub complexity: " ++ toString stubComplexity,
       "Test sequence quality score: " ++ toString quality,
       "Project suitability score: " ++ toString suitability] }

/-- Model of `TestOrderSelector.compare_algorithms`
(`test_order_selector.py` lines 38-47): the three registered strategies are
run and evaluated in dict insertion order; an exception anywhere propagates
(there is no isolation of a failing strategy). -/
def compare_algorithms (g : DependencyGraph) :
    Except String (List (String × AlgorithmComparison)) := do
  let r1 := TaiDaniels.generate_order g
  let c1 ← evaluate_algorithm g "Tai-Daniels" r1
  let r2 ← TJJM.generate_order g
  let c2 ← evaluate_algorithm g "TJJM" r2
  let r3 ← BLW.generate_order g
  let c3 ← evaluate_algorithm g "BLW" r3
  return [("Tai-Daniels", c1), ("TJJM", c2), ("BLW", c3)]

/-- Model of `TestOrderSelector._calculate_weights`
(`test_order_selector.py` lines 190-216), as the tuple
(stubs, complexity, quality, suitability). -/
def calculate_weights (g : DependencyGraph) : ℚ × ℚ × ℚ × ℚ :=
  let density := graphDensity g
  if density < 3/10 then (4/10, 2/10, 3/10, 1/10)
  else if density > 7/10 then (2/10, 4/10, 2/10, 2/10)
  else (3/10, 3/10, 2/10, 2/10)

/-- The weighted score of one comparison in `select_best_algorithm`
(`test_order_selector.py` lines 60-65). -/
def comparisonScore (w : ℚ × ℚ × ℚ × ℚ) (c : AlgorithmComparison) : ℚ :=
  w.1 * (1 / ((c.total_stubs : ℚ) + 1)) + w.2.1 * (1 / (c.stub_complexity + 1))
    + w.2.2.1 * c.test_sequence_quality + w.2.2.2 * c.suitability_score

/-- Model of `self.algorithms[name].generate_order()` for the re-run of the
winning strategy. -/
def runByName (g : DependencyGraph) (name : String) :
    Except String TestOrderResult :=
  if name = "Tai-Daniels" then .ok (TaiDaniels.generate_order g)
  else if name = "TJJM" then TJJM.generate_order g
  else if name = "BLW" then BLW.generate_order g
  else .error "KeyError"

/-- One step of the best-score fold of `select_best_algorithm`: the first
comparison is always taken (the initial best score is `-inf`), later ones
only with a strictly greater score. -/
def selectFoldStep (w : ℚ × ℚ × ℚ × ℚ)
    (best : Option (String × AlgorithmComparison × ℚ))
    (p : String × AlgorithmComparison) :
    Option (String × AlgorithmComparison × ℚ) :=
  let score := comparisonScore w p.2
  match best with
  | none => some (p.1, p.2, score)
  | some (bn, bc, bs) =>
      if score > bs then some (p.1, p.2, score) else some (bn, bc, bs)

/-- Model of `TestOrderSelector.select_best_algorithm`
(`test_order_selector.py` lines 49-78): strictly greater scores win, the
first maximal comparison in dict order is kept, and the winner is re-run. -/
def select_best_algorithm (g : DependencyGraph) :
    Except String (String × TestOrderResult × List String) := do
  let comparisons ← compare_algorithms g
  let w := calculate_weights g
  let best := comparisons.foldl (selectFoldStep w) none
  match best with
  | none => .error "KeyError: None"
  | some (name, comp, _) =>
      let justification :=
        ("Selected " ++ name ++ " as the best algorithm based on:")
          :: comp.justification
      let result ← runByName g name
      return (name, result, justification)

end Selector

/-- The four ordering strategies implemented under
`src/strategy/test_order/`. -/
inductive Strategy where
  | td
  | tjjm
  | blw
  | mdtog
deriving Repr, DecidableEq

/-- Run a strategy on a graph; `TaiDanielsOrderGenerator.generate_order` has
no raising statements and is total. -/
def runStrategy : Strategy → DependencyGraph → Except String TestOrderResult
  | .td, g => .ok (TaiDaniels.generate_order g)
  | .tjjm, g => TJJM.generate_order g
  | .blw, g => BLW.generate_order g
  | .mdtog, g => MDTOG.generate_order g

/-- Well-formedness of a dependency graph: the id-keyed dicts are consistent,
every node is a registered component, and every edge and relationship links
registered components.  Graphs built by adding components first and then
relationships between them (the construction used throughout the repository
and its tests) satisfy this. -/
def WF (g : DependencyGraph) : Prop :=
  (g.components.map Prod.fst).Nodup ∧
  (∀ p ∈ g.components, p.1 = p.2.id) ∧
  g.nodes = g.components.map Prod.fst ∧
  (∀ e ∈ g.adj, e.1 = e.2.2.source.id ∧ e.2.1 = e.2.2.target.id ∧
    dictGet e.2.2.source.id g.components = some e.2.2.source ∧
    dictGet e.2.2.target.id g.components = some e.2.2.target) ∧
  (∀ r ∈ g.relationships,
    dictGet r.2.source.id g.components = some r.2.source ∧
    dictGet r.2.target.id g.components = some r.2.target) ∧
  g.edgePairs.Nodup

instance (g : DependencyGraph) : Decidable (WF g) := by
  unfold WF; infer_instance

/-- Build a graph the way the repository tests do: all components first, then
the relationships. -/
def mkGraph (cs : List Component) (rs : List Relationship) : DependencyGraph :=
  rs.foldl DependencyGraph.add_relationship
    (cs.foldl DependencyGraph.add_component {})

/-- Concrete component: `A`. -/
def compA : Component :=
  { id := 0, name := "A", component_type := "class", location := "a.py" }

/-- Concrete component: `B`. -/
def compB : Component :=
  { id := 1, name := "B", component_type := "class", location := "b.py" }

/-- Concrete component: `C`. -/
def compC : Component :=
  { id := 2, name := "C", component_type := "class", location := "c.py" }

/-- The empty dependency graph. -/
def emptyGraph : DependencyGraph := mkGraph [] []

/-- The linear chain of the specification scenario: `A` depends on `B`
depends on `C`, association edges of strength 1. -/
def chainGraph : DependencyGraph :=
  mkGraph [compA, compB, compC]
    [{ id := 100, source := compA, target := compB, relationship_type := "association" },
     { id := 101, source := compB, target := compC, relationship_type := "association" }]

/-- A single component with a self-loop dependency. -/
def selfLoopGraph : DependencyGraph :=
  mkGraph [compA]
    [{ id := 100, source := compA, target := compA, relationship_type := "association" }]

/-- Two components depending on each other (one 2-cycle). -/
def twoCycleGraph : DependencyGraph :=
  mkGraph [compA, compB]
    [{ id := 100, source := compA, target := compB, relationship_type := "association" },
     { id := 101, source := compB, target := compA, relationship_type := "association" }]

/-- A component distinct from `compA` but sharing its name. -/
def compAlias : Component :=
  { id := 7, name := "A", component_type := "class", location := "elsewhere.py" }

/-- A relationship between two components that are not registered in the
empty graph. -/
def relAB : Relationship :=
  { id := 100, source := compA, target := compB, relationship_type := "association" }

/-- The comparison map the selector produces on the empty graph (used as a
concrete witness). -/
def cmpEmpty : List (String × AlgorithmComparison) :=
  match Selector.compare_algorithms emptyGraph with
  | .ok m => m
  | .error _ => []

/-- The number of edges into `v` whose source is outside `A` (the value the
`indegree_map` counter holds once the members of `A` have been processed). -/
def inCnt (edges : List (Nat × Nat)) (A : List Nat) (v : Nat) : Nat :=
  (edges.filter (fun e => e.2 = v ∧ e.1 ∉ A)).length

/-- Occurrence order in a component order, by id position: `d` occurs strictly
earlier than `c`. -/
def occursBefore (order : List Component) (d c : Component) : Prop :=
  (order.map Component.id).indexOf d.id < (order.map Component.id).indexOf c.id

/-- The Tai-Daniels result on the chain graph (a concrete witness value). -/
def tdChainResult : TestOrderResult :=
  match runStrategy .td chainGraph with
  | .ok r => r
  | .error _ => default

/-- The component stored under a key, with a junk default. -/
def valueAt (g : DependencyGraph) (i : Nat) : Component :=
  (dictGet i g.components).getD default

/-- Ids of the components listed strictly before the first occurrence of
`c.id` in an order. -/
def idsBefore (order : List Component) (c : Component) : List Nat :=
  (order.takeWhile (fun e => e.id ≠ c.id)).map Component.id

/-- Component with a numeric name, used by the cycle-breaking stub-soundness
counterexample. -/
def cmpN (i : Nat) : Component :=
  { id := i, name := toString i, component_type := "class", location := "m.py" }

/-- Edge pairs of the stub-soundness counterexample graph: one strongly
connected component in which the cycle-breaking loop of the Cycle-Impact
strategy removes `(0, 1)`, `(9, 0)` and `(10, 0)` in that order, leaving both
`0` and `1` with in-degree zero, so the node-insertion order places `1`
before `0` in the final reversed topological order while `1` sits in the stub
set of `0`. -/
def c8Pairs : List (Nat × Nat) :=
  [(0, 1),
   (1, 2), (1, 3), (1, 4),
   (2, 9), (3, 9), (4, 9),
   (1, 5), (1, 6), (1, 7), (1, 8),
   (5, 10), (6, 10), (7, 10), (8, 10),
   (9, 0),
   (10, 0),
   (0, 11), (0, 12), (0, 13),
   (11, 9), (12, 9), (13, 9),
   (0, 14), (0, 15),
   (14, 10), (15, 10)]

/-- The stub-soundness counterexample graph. -/
def c8Graph : DependencyGraph :=
  mkGraph ((List.range 16).map cmpN)
    (c8Pairs.enum.map (fun p =>
      { id := 100 + p.1, source := cmpN p.2.1, target := cmpN p.2.2,
        relationship_type := "association" }))

/-- Certificate that one `_select_edge_to_break` call does not depend on the
enumeration order of `nx.simple_cycles`: the winner is strictly maximal, every
other counted edge having a strictly smaller cycle count or an equal count and
a strictly larger descendant impact (the selection rule prefers high count,
then low impact, so a strict winner is chosen under every enumeration order
of the counted edges). -/
def selectionStrict (nodes : List Nat) (edges : List (Nat × Nat)) : Bool :=
  let cycles := simpleCycles nodes edges
  if cycles.isEmpty then true
  else
    let counts := edgeCycleCounts cycles edges
    match selectBestCounted nodes edges counts with
    | none => true
    | some w =>
        let wcnt := ((counts.find? (fun p => p.1 = w)).map Prod.snd).getD 0
        let wimp := (descendants nodes edges w.2).length
        counts.all (fun p => decide (p.1 = w ∨ p.2 < wcnt ∨
          (p.2 = wcnt ∧ (descendants nodes edges p.1.2).length > wimp)))

/-- Certificate that a whole run of the cycle-breaking loop is independent of
the cycle enumeration order: every round selects a strictly maximal edge. -/
def breakLoopStrict (nodes : List Nat) :
    Nat → List (Nat × Nat) → Bool
  | 0, _ => true
  | fuel + 1, edges =>
      if isAcyclicEdges nodes edges then true
      else
        match TJJM.select_edge_to_break nodes edges with
        | none => false
        | some e => selectionStrict nodes edges &&
            breakLoopStrict nodes fuel (removeEdge edges e)

/-- The node ids of the unique non-trivial SCC of the counterexample graph. -/
def c8SccIds : List Nat :=
  (((c8Graph.get_strongly_connected_components).filter
    (fun s => s.length > 1)).headD []).map Component.id

/-- The edge pairs of the induced subgraph handed to the cycle-breaking
loop. -/
def c8SubEdges : List (Nat × Nat) :=
  (c8Graph.edgePairs).filter (fun e => e.1 ∈ c8SccIds ∧ e.2 ∈ c8SccIds)

/-! ### Lemmas -/

/-- Inversion for a successful `Except` bind. -/
theorem exceptBind_ok {α β : Type} {x : Except String α} {f : α → Except String β}
    {b : β} (h : x.bind f = .ok b) : ∃ a, x = .ok a ∧ f a = .ok b := by
  cases x with
  | error e => simp [Except.bind] at h
  | ok a => exact ⟨a, rfl, h⟩

/-- Inserting a key into an ordered dict makes it retrievable. -/
theorem dictGet_dictInsert {α : Type} (k : Nat) (v : α) (l : List (Nat × α)) :
    dictGet k (dictInsert k v l) = some v := by
  induction l with
  | nil => simp [dictInsert, dictGet]
  | cons p rest ih =>
      by_cases h : k = p.1
      · simp [dictInsert, dictGet, h]
      · simp [dictInsert, dictGet, h, ih]

/-- The shape of a successful comparison map: exactly the three registered
strategies, in registration order. -/
theorem compare_ok_shape (g : DependencyGraph)
    (m : List (String × AlgorithmComparison))
    (h : Selector.compare_algorithms g = .ok m) :
    ∃ c1 c2 c3, m = [("Tai-Daniels", c1), ("TJJM", c2), ("BLW", c3)] := by
  unfold Selector.compare_algorithms at h
  simp only [bind, pure] at h
  obtain ⟨c1, h1, h⟩ := exceptBind_ok h
  obtain ⟨r2, h2, h⟩ := exceptBind_ok h
  obtain ⟨c2, h3, h⟩ := exceptBind_ok h
  obtain ⟨r3, h4, h⟩ := exceptBind_ok h
  obtain ⟨c3, h5, h⟩ := exceptBind_ok h
  simp only [Except.pure] at h
  cases h
  exact ⟨c1, c2, c3, rfl⟩

/-- The name held by the best-score fold comes from the scanned list (or from
the initial accumulator). -/
theorem selectFold_mem (w : ℚ × ℚ × ℚ × ℚ) :
    ∀ (l : List (String × AlgorithmComparison))
      (init : Option (String × AlgorithmComparison × ℚ))
      (n : String) (c : AlgorithmComparison) (s : ℚ),
      l.foldl (Selector.selectFoldStep w) init = some (n, c, s) →
      (∃ c0 s0, init = some (n, c0, s0)) ∨ n ∈ l.map Prod.fst := by
  intro l
  induction l with
  | nil =>
      intro init n c s h
      exact Or.inl ⟨c, s, h⟩
  | cons p rest ih =>
      intro init n c s h
      simp only [List.foldl_cons] at h
      rcases ih (Selector.selectFoldStep w init p) n c s h with ⟨c0, s0, h0⟩ | hmem
      · unfold Selector.selectFoldStep at h0
        cases init with
        | none =>
            simp only [Option.some.injEq] at h0
            injection h0 with h1 h23
            subst h1
            exact Or.inr (by simp)
        | some q =>
            obtain ⟨bn, bc, bs⟩ := q
            simp only at h0
            split at h0 <;> simp only [Option.some.injEq] at h0
            · injection h0 with h1 h23
              subst h1
              exact Or.inr (by simp)
            · injection h0 with h1 h23
              subst h1
              exact Or.inl ⟨bc, bs, rfl⟩
      · exact Or.inr (by simp [hmem])

/-! ### Lemmas about the indegree counters -/

theorem cntGet_cntRemove (counts : List (Nat × Nat)) (v w : Nat) :
    cntGet (cntRemove counts v) w = if w = v then none else cntGet counts w := by
  induction counts with
  | nil =>
      simp only [cntRemove, List.filter_nil, cntGet]
      split <;> rfl
  | cons p rest ih =>
      by_cases hpv : p.1 = v
      · have : cntRemove (p :: rest) v = cntRemove rest v := by
          simp [cntRemove, hpv]
        rw [this, ih]
        by_cases hwv : w = v
        · simp [hwv]
        · have hpw : ¬ p.1 = w := by
            rw [hpv]; intro h; exact hwv h.symm
          simp [hwv, cntGet, hpw]
      · have : cntRemove (p :: rest) v = p :: cntRemove rest v := by
          simp [cntRemove, hpv]
        rw [this]
        by_cases hpw : p.1 = w
        · have hwv : ¬ w = v := by
            intro h; exact hpv (hpw.trans h)
          simp [cntGet, hpw, hwv]
        · simp [cntGet, hpw, ih]

theorem cntGet_cntSet (counts : List (Nat × Nat)) (v n w : Nat) :
    cntGet (cntSet counts v n) w =
      if w = v then (cntGet counts v).map (fun _ => n) else cntGet counts w := by
  induction counts with
  | nil =>
      simp only [cntSet, List.map_nil, cntGet]
      split <;> rfl
  | cons p rest ih =>
      by_cases hpv : p.1 = v
      · have : cntSet (p :: rest) v n = (v, n) :: cntSet rest v n := by
          simp [cntSet, hpv]
        rw [this]
        by_cases hwv : w = v
        · simp [cntGet, hwv, hpv]
        · have hvw : ¬ v = w := fun h => hwv h.symm
          have hpw : ¬ p.1 = w := by rw [hpv]; exact hvw
          simp [cntGet, hvw, hpw, ih, hwv]
      · have : cntSet (p :: rest) v n = p :: cntSet rest v n := by
          simp [cntSet, hpv]
        rw [this]
        by_cases hpw : p.1 = w
        · have hwv : ¬ w = v := by
            intro h; exact hpv (hpw.trans h)
          simp [cntGet, hpw, hwv]
        · simp [cntGet, hpw, ih, hpv]

theorem map_fst_filter {α : Type} (l : List (Nat × α)) (q : Nat → Bool) :
    (l.filter (fun p => q p.1)).map Prod.fst = (l.map Prod.fst).filter q := by
  induction l with
  | nil => rfl
  | cons p rest ih =>
      simp only [List.filter_cons, List.map_cons]
      cases hq : q p.1 <;> simp [hq, ih]

theorem keys_cntRemove (counts : List (Nat × Nat)) (v : Nat) :
    (cntRemove counts v).map Prod.fst = (counts.map Prod.fst).filter (fun x => x ≠ v) := by
  unfold cntRemove
  exact map_fst_filter counts (fun x => decide (x ≠ v))

theorem keys_cntSet (counts : List (Nat × Nat)) (v n : Nat) :
    (cntSet counts v n).map Prod.fst = counts.map Prod.fst := by
  unfold cntSet
  induction counts with
  | nil => rfl
  | cons p rest ih =>
      simp only [List.map_cons, ih]
      by_cases h : p.1 = v
      · simp [h]
      · simp [h]

theorem snd_nodup_of_fst_const (u : Nat) :
    ∀ (l : List (Nat × Nat)), l.Nodup → (∀ e ∈ l, e.1 = u) →
      (l.map Prod.snd).Nodup := by
  intro l
  induction l with
  | nil => intro _ _; simp
  | cons e rest ih =>
      intro hnd hall
      simp only [List.map_cons, List.nodup_cons]
      constructor
      · intro hmem
        obtain ⟨e', he', heq⟩ := List.mem_map.mp hmem
        have h1 : e.1 = u := hall e (by simp)
        have h2 : e'.1 = u := hall e' (List.mem_cons_of_mem _ he')
        have hee : e' = e := by
          obtain ⟨a, b⟩ := e
          obtain ⟨a', b'⟩ := e'
          simp only at h1 h2 heq
          simp [h1, h2, heq]
        exact (List.nodup_cons.mp hnd).1 (hee ▸ he')
      · exact ih (List.nodup_cons.mp hnd).2
          (fun e' he' => hall e' (List.mem_cons_of_mem _ he'))

theorem outTargets_nodup (edges : List (Nat × Nat)) (u : Nat) (h : edges.Nodup) :
    (outTargets edges u).Nodup := by
  unfold outTargets
  refine snd_nodup_of_fst_const u _ (h.filter _) ?_
  intro e he
  exact of_decide_eq_true (List.mem_filter.mp he).2

theorem mem_outTargets (edges : List (Nat × Nat)) (u v : Nat) :
    v ∈ outTargets edges u ↔ (u, v) ∈ edges := by
  unfold outTargets
  constructor
  · intro h
    obtain ⟨e, he, heq⟩ := List.mem_map.mp h
    obtain ⟨hmem, hfst⟩ := List.mem_filter.mp he
    have hfst' : e.1 = u := of_decide_eq_true hfst
    obtain ⟨a, b⟩ := e
    simp only at hfst' heq
    subst hfst'
    subst heq
    exact hmem
  · intro h
    exact List.mem_map.mpr ⟨(u, v), List.mem_filter.mpr ⟨h, by simp⟩, rfl⟩

/-- Pointwise characterization of one parent decrement pass
(`processTargets`): a counter in the target list is decremented, dropping to
deletion at one; the discovered generation gets exactly the counters that
stood at one. -/
theorem processTargets_spec :
    ∀ (ts : List Nat), ts.Nodup → ∀ (counts : List (Nat × Nat)) (next : List Nat),
      (∀ w, cntGet (processTargets counts next ts).1 w =
        (match cntGet counts w with
          | none => none
          | some n => if w ∈ ts then (if n = 1 then none else some (n - 1)) else some n)) ∧
      (processTargets counts next ts).2
        = next ++ ts.filter (fun v => cntGet counts v = some 1) := by
  intro ts
  induction ts with
  | nil =>
      intro _ counts next
      constructor
      · intro w
        simp only [processTargets]
        cases cntGet counts w <;> simp
      · simp [processTargets]
  | cons v vs ih =>
      intro hnd counts next
      have hv : v ∉ vs := (List.nodup_cons.mp hnd).1
      have hvs : vs.Nodup := (List.nodup_cons.mp hnd).2
      simp only [processTargets]
      cases hcv : cntGet counts v with
      | none =>
          obtain ⟨ih1, ih2⟩ := ih hvs counts next
          constructor
          · intro w
            rw [ih1 w]
            by_cases hw : w = v
            · subst hw
              rw [hcv]
            · cases cntGet counts w <;> simp [hw]
          · rw [ih2]
            have : (v :: vs).filter (fun x => cntGet counts x = some 1)
                = vs.filter (fun x => cntGet counts x = some 1) := by
              simp [List.filter_cons, hcv]
            rw [this]
      | some n =>
          by_cases hn : n = 1
          · subst hn
            simp only [eq_self_iff_true, if_true]
            obtain ⟨ih1, ih2⟩ := ih hvs (cntRemove counts v) (next ++ [v])
            constructor
            · intro w
              rw [ih1 w, cntGet_cntRemove]
              by_cases hw : w = v
              · subst hw
                simp [hcv]
              · simp only [if_neg hw]
                cases cntGet counts w <;> simp [hw]
            · rw [ih2]
              have hfv : (v :: vs).filter (fun x => cntGet counts x = some 1)
                  = v :: vs.filter (fun x => cntGet counts x = some 1) := by
                simp [List.filter_cons, hcv]
              have hfr : vs.filter (fun x => cntGet (cntRemove counts v) x = some 1)
                  = vs.filter (fun x => cntGet counts x = some 1) := by
                apply List.filter_congr
                intro x hx
                have hxv : ¬ x = v := fun h => hv (h ▸ hx)
                rw [cntGet_cntRemove, if_neg hxv]
              rw [hfr, hfv]
              simp
          · simp only [if_neg hn]
            obtain ⟨ih1, ih2⟩ := ih hvs (cntSet counts v (n - 1)) next
            constructor
            · intro w
              rw [ih1 w, cntGet_cntSet]
              by_cases hw : w = v
              · subst hw
                rw [hcv]
                simp [hv, hn]
              · simp only [if_neg hw]
                cases cntGet counts w <;> simp [hw]
            · rw [ih2]
              have hfv : (v :: vs).filter (fun x => cntGet counts x = some 1)
                  = vs.filter (fun x => cntGet counts x = some 1) := by
                simp [List.filter_cons, hcv, hn]
              have hfr : vs.filter (fun x => cntGet (cntSet counts v (n - 1)) x = some 1)
                  = vs.filter (fun x => cntGet counts x = some 1) := by
                apply List.filter_congr
                intro x hx
                have hxv : ¬ x = v := fun h => hv (h ▸ hx)
                rw [cntGet_cntSet, if_neg hxv]
              rw [hfr, hfv]

theorem inCnt_cons (e : Nat × Nat) (rest : List (Nat × Nat)) (A : List Nat) (w : Nat) :
    inCnt (e :: rest) A w
      = (if e.2 = w ∧ e.1 ∉ A then 1 else 0) + inCnt rest A w := by
  simp only [inCnt, List.filter_cons]
  split
  · next h =>
      have : e.2 = w ∧ e.1 ∉ A := of_decide_eq_true h
      rw [if_pos this]
      simp [Nat.add_comm]
  · next h =>
      have : ¬ (e.2 = w ∧ e.1 ∉ A) := fun hc => h (decide_eq_true hc)
      rw [if_neg this]
      simp

theorem inCnt_pos_of_mem (edges : List (Nat × Nat)) (A : List Nat) (u w : Nat)
    (hm : (u, w) ∈ edges) (hu : u ∉ A) : 1 ≤ inCnt edges A w := by
  unfold inCnt
  have hmem : (u, w) ∈ edges.filter (fun e => decide (e.2 = w ∧ e.1 ∉ A)) :=
    List.mem_filter.mpr ⟨hm, by simp [hu]⟩
  exact List.length_pos_of_mem hmem

theorem inCnt_snoc : ∀ (edges : List (Nat × Nat)) (A : List Nat) (u w : Nat),
    u ∉ A → edges.Nodup →
    inCnt edges (A ++ [u]) w = inCnt edges A w - (if (u, w) ∈ edges then 1 else 0) := by
  intro edges
  induction edges with
  | nil => intro A u w _ _; simp [inCnt]
  | cons e rest ih =>
      intro A u w hu hnd
      have hrest := (List.nodup_cons.mp hnd).2
      have hnotin := (List.nodup_cons.mp hnd).1
      have ihr := ih A u w hu hrest
      rw [inCnt_cons, inCnt_cons, ihr]
      by_cases he : e = (u, w)
      · subst he
        have hm2 : ((u, w) : Nat × Nat) ∉ rest := hnotin
        have c1 : ¬ ((u, w).2 = w ∧ (u, w).1 ∉ A ++ [u]) := by
          intro hc
          exact hc.2 (by simp)
        have c2 : ((u, w).2 = w ∧ (u, w).1 ∉ A) := ⟨rfl, hu⟩
        rw [if_neg c1, if_pos c2, if_pos (by simp : ((u,w) : Nat × Nat) ∈ (u,w) :: rest),
          if_neg hm2]
        omega
      · have hcond : ((e.2 = w ∧ e.1 ∉ A ++ [u])) ↔ (e.2 = w ∧ e.1 ∉ A) := by
          constructor
          · intro hc
            exact ⟨hc.1, fun hA => hc.2 (by simp [hA])⟩
          · intro hc
            refine ⟨hc.1, ?_⟩
            intro hA
            rcases List.mem_append.mp hA with h | h
            · exact hc.2 h
            · have heu : e.1 = u := by simpa using h
              exact he (by
                obtain ⟨a, b⟩ := e
                simp only at heu hc
                simp [heu, hc.1])
        have hmem : (((u, w) : Nat × Nat) ∈ e :: rest) ↔ ((u, w) ∈ rest) := by
          constructor
          · intro h
            rcases List.mem_cons.mp h with h | h
            · exact absurd h.symm he
            · exact h
          · exact fun h => List.mem_cons_of_mem _ h
        by_cases hc : (e.2 = w ∧ e.1 ∉ A)
        · rw [if_pos (hcond.mpr hc), if_pos hc]
          by_cases hm : ((u, w) : Nat × Nat) ∈ rest
          · have := inCnt_pos_of_mem rest A u w hm hu
            rw [if_pos (hmem.mpr hm), if_pos hm]
            omega
          · rw [if_neg (fun h => hm (hmem.mp h)), if_neg hm]
            omega
        · rw [if_neg (fun h => hc (hcond.mp h)), if_neg hc]
          by_cases hm : ((u, w) : Nat × Nat) ∈ rest
          · rw [if_pos (hmem.mpr hm), if_pos hm]
            omega
          · rw [if_neg (fun h => hm (hmem.mp h)), if_neg hm]
            omega

theorem inCnt_append_le (edges : List (Nat × Nat)) (A X : List Nat) (w : Nat) :
    inCnt edges (A ++ X) w ≤ inCnt edges A w := by
  induction edges with
  | nil => simp [inCnt]
  | cons e rest ih =>
      rw [inCnt_cons, inCnt_cons]
      by_cases hc : (e.2 = w ∧ e.1 ∉ A ++ X)
      · have : (e.2 = w ∧ e.1 ∉ A) :=
          ⟨hc.1, fun hA => hc.2 (List.mem_append.mpr (Or.inl hA))⟩
        rw [if_pos hc, if_pos this]
        omega
      · rw [if_neg hc]
        split <;> omega

theorem inCnt_zero_sources (edges : List (Nat × Nat)) (A : List Nat) (w : Nat)
    (h : inCnt edges A w = 0) : ∀ u, (u, w) ∈ edges → u ∈ A := by
  intro u hm
  by_contra hu
  have := inCnt_pos_of_mem edges A u w hm hu
  omega

/-- Full specification of one generation pass: the counters afterwards track
the indegrees relative to `acc ++ gen`, and the discovered generation is a
duplicate-free list of exactly the nodes whose counters vanished. -/
theorem processGen_spec (nodes : List Nat) (edges : List (Nat × Nat))
    (hedges : edges.Nodup) :
    ∀ (gen acc : List Nat) (counts : List (Nat × Nat)) (next : List Nat),
      gen.Nodup → (∀ u ∈ gen, u ∉ acc) →
      (∀ w, cntGet counts w =
        if w ∈ nodes ∧ 0 < inCnt edges acc w then some (inCnt edges acc w) else none) →
      (∀ w, cntGet (processGen edges gen counts next).1 w =
        if w ∈ nodes ∧ 0 < inCnt edges (acc ++ gen) w
        then some (inCnt edges (acc ++ gen) w) else none) ∧
      (∃ Δ, (processGen edges gen counts next).2 = next ++ Δ ∧ Δ.Nodup ∧
        (∀ v ∈ Δ, (v ∈ nodes ∧ 0 < inCnt edges acc v) ∧ inCnt edges (acc ++ gen) v = 0) ∧
        (∀ v, cntGet counts v ≠ none →
          cntGet (processGen edges gen counts next).1 v = none → v ∈ Δ)) := by
  intro gen
  induction gen with
  | nil =>
      intro acc counts next _ _ hinv
      constructor
      · intro w
        simpa using hinv w
      · refine ⟨[], by simp [processGen], by simp, by simp, ?_⟩
        intro v hv hnone
        simp only [processGen] at hnone
        exact absurd hnone hv
  | cons u us ih =>
      intro acc counts next hnd hdisj hinv
      have hu_acc : u ∉ acc := hdisj u (by simp)
      have hus_nd : us.Nodup := (List.nodup_cons.mp hnd).2
      have hu_us : u ∉ us := (List.nodup_cons.mp hnd).1
      have hts_nd : (outTargets edges u).Nodup := outTargets_nodup edges u hedges
      obtain ⟨hPT1, hPT2⟩ := processTargets_spec (outTargets edges u) hts_nd counts next
      set p := processTargets counts next (outTargets edges u) with hp
      -- the counters after parent u track acc ++ [u]
      have hinv1 : ∀ w, cntGet p.1 w =
          if w ∈ nodes ∧ 0 < inCnt edges (acc ++ [u]) w
          then some (inCnt edges (acc ++ [u]) w) else none := by
        intro w
        have hsn := inCnt_snoc edges acc u w hu_acc hedges
        have hmem := mem_outTargets edges u w
        by_cases hw : w ∈ nodes ∧ 0 < inCnt edges acc w
        · have hsome : cntGet counts w = some (inCnt edges acc w) := by
            rw [hinv w, if_pos hw]
          have hpw : cntGet p.1 w =
              if w ∈ outTargets edges u then
                (if inCnt edges acc w = 1 then none
                  else some (inCnt edges acc w - 1))
              else some (inCnt edges acc w) := by
            simp only [hPT1 w, hsome]
          rw [hpw]
          by_cases hts : w ∈ outTargets edges u
          · have hedge : (u, w) ∈ edges := hmem.mp hts
            rw [if_pos hts]
            by_cases h1 : inCnt edges acc w = 1
            · rw [if_pos h1]
              have h0 : inCnt edges (acc ++ [u]) w = 0 := by
                rw [hsn, if_pos hedge, h1]
              rw [if_neg (by simp [h0])]
            · rw [if_neg h1]
              have heq : inCnt edges (acc ++ [u]) w = inCnt edges acc w - 1 := by
                rw [hsn, if_pos hedge]
              rw [heq, if_pos ⟨hw.1, by omega⟩]
          · have hedge : (u, w) ∉ edges := fun h => hts (hmem.mpr h)
            rw [if_neg hts]
            have heq : inCnt edges (acc ++ [u]) w = inCnt edges acc w := by
              rw [hsn, if_neg hedge]
              omega
            rw [heq, if_pos hw]
        · have hnone : cntGet counts w = none := by rw [hinv w, if_neg hw]
          have hpw : cntGet p.1 w = none := by simp only [hPT1 w, hnone]
          rw [hpw]
          have hle := inCnt_append_le edges acc [u] w
          rw [if_neg (fun hc => hw ⟨hc.1, by omega⟩)]
      have hstep : processGen edges (u :: us) counts next = processGen edges us p.1 p.2 := by
        simp [processGen]
      have hdisj1 : ∀ x ∈ us, x ∉ acc ++ [u] := by
        intro x hx hmem
        rcases List.mem_append.mp hmem with h | h
        · exact hdisj x (by simp [hx]) h
        · have : x = u := by simpa using h
          exact hu_us (this ▸ hx)
      obtain ⟨ih1, Δ', hΔ'eq, hΔ'nd, hΔ'prop, hΔ'cover⟩ :=
        ih (acc ++ [u]) p.1 p.2 hus_nd hdisj1 hinv1
      have hsplit : (acc ++ [u]) ++ us = acc ++ u :: us := by simp
      rw [hstep]
      constructor
      · intro w
        rw [ih1 w, hsplit]
      · set Δu := (outTargets edges u).filter (fun v => cntGet counts v = some 1) with hΔu
        have hΔu_prop : ∀ v ∈ Δu, v ∈ outTargets edges u ∧ cntGet counts v = some 1 := by
          intro v hv
          obtain ⟨h1, h2⟩ := List.mem_filter.mp hv
          exact ⟨h1, of_decide_eq_true h2⟩
        have hΔu_none : ∀ v ∈ Δu, cntGet p.1 v = none := by
          intro v hv
          obtain ⟨h1, h2⟩ := hΔu_prop v hv
          rw [hPT1 v, h2]
          simp [h1]
        have hΔu_nodes : ∀ v ∈ Δu, v ∈ nodes ∧ inCnt edges acc v = 1 := by
          intro v hv
          obtain ⟨h1, h2⟩ := hΔu_prop v hv
          have := hinv v
          rw [h2] at this
          by_cases hw : v ∈ nodes ∧ 0 < inCnt edges acc v
          · rw [if_pos hw] at this
            have : inCnt edges acc v = 1 := by
              have := Option.some.inj this.symm
              omega
            exact ⟨hw.1, this⟩
          · rw [if_neg hw] at this
            exact absurd this (by simp)
        refine ⟨Δu ++ Δ', ?_, ?_, ?_, ?_⟩
        · rw [hΔ'eq, hPT2, List.append_assoc]
        · refine List.Nodup.append (hts_nd.filter _) hΔ'nd ?_
          intro v hvu hv'
          have hnone := hΔu_none v hvu
          have := (hΔ'prop v hv').1
          have hcnt := hinv1 v
          rw [if_pos this] at hcnt
          rw [hnone] at hcnt
          exact absurd hcnt.symm (by simp)
        · intro v hv
          rcases List.mem_append.mp hv with hvu | hv'
          · obtain ⟨hn, h1⟩ := hΔu_nodes v hvu
            have hedge : (u, v) ∈ edges := (mem_outTargets edges u v).mp (hΔu_prop v hvu).1
            have h0 : inCnt edges (acc ++ [u]) v = 0 := by
              rw [inCnt_snoc edges acc u v hu_acc hedges, if_pos hedge, h1]
            refine ⟨⟨hn, by omega⟩, ?_⟩
            have := inCnt_append_le edges (acc ++ [u]) us v
            rw [hsplit] at this
            omega
          · obtain ⟨⟨hn, hpos⟩, h0⟩ := hΔ'prop v hv'
            have hle := inCnt_append_le edges acc [u] v
            rw [hsplit] at h0
            exact ⟨⟨hn, by omega⟩, h0⟩
        · intro v hvs hvnone
          by_cases hmid : cntGet p.1 v = none
          · refine List.mem_append.mpr (Or.inl ?_)
            cases hcv : cntGet counts v with
            | none => exact absurd hcv hvs
            | some n =>
                have hmid2 := hmid
                rw [hPT1 v] at hmid2
                simp only [hcv] at hmid2
                by_cases hts : v ∈ outTargets edges u
                · by_cases h1 : n = 1
                  · subst h1
                    exact List.mem_filter.mpr ⟨hts, by simp [hcv]⟩
                  · rw [if_pos hts, if_neg h1] at hmid2
                    exact absurd hmid2 (by simp)
                · rw [if_neg hts] at hmid2
                  exact absurd hmid2 (by simp)
          · exact List.mem_append.mpr (Or.inr (hΔ'cover v hmid hvnone))

/-- On success the generation rounds emit a permutation of the node list. -/
theorem topoRounds_perm (nodes : List Nat) (edges : List (Nat × Nat))
    (hnodes : nodes.Nodup) (hedges : edges.Nodup) :
    ∀ (fuel : Nat) (counts : List (Nat × Nat)) (gen acc l : List Nat),
      (acc ++ gen).Nodup →
      (∀ x ∈ acc ++ gen, x ∈ nodes) →
      (∀ w, cntGet counts w =
        if w ∈ nodes ∧ 0 < inCnt edges acc w then some (inCnt edges acc w) else none) →
      (∀ x ∈ nodes, x ∈ acc ++ gen ∨ 0 < inCnt edges acc x) →
      (∀ v ∈ gen, inCnt edges acc v = 0) →
      (∀ v ∈ acc, inCnt edges acc v = 0) →
      topoGenRounds edges fuel counts gen acc = some l →
      l.Perm nodes := by
  intro fuel
  induction fuel with
  | zero =>
      intro counts gen acc l hnd hmem hinv hcover _ _ h
      simp only [topoGenRounds] at h
      by_cases hc : gen.isEmpty ∧ counts.isEmpty
      · rw [if_pos hc] at h
        obtain ⟨hgen, hcounts⟩ := hc
        have hgen' : gen = [] := List.isEmpty_iff.mp hgen
        have hcounts' : counts = [] := List.isEmpty_iff.mp hcounts
        subst hgen' hcounts'
        have hl : acc = l := by injection h
        subst hl
        simp only [List.append_nil] at hnd hmem hcover
        have hsub : acc ⊆ nodes := fun x hx => hmem x hx
        have hsup : nodes ⊆ acc := by
          intro x hx
          rcases hcover x hx with h | h
          · exact h
          · have := hinv x
            rw [if_pos ⟨hx, h⟩] at this
            simp [cntGet] at this
        exact List.Subperm.antisymm (hnd.subperm hsub) (hnodes.subperm hsup)
      · rw [if_neg hc] at h
        exact absurd h (by simp)
  | succ fuel ih =>
      intro counts gen acc l hnd hmem hinv hcover hgen0 hacc0 h
      simp only [topoGenRounds] at h
      by_cases hge : gen.isEmpty
      · rw [if_pos hge] at h
        have hgen' : gen = [] := List.isEmpty_iff.mp hge
        subst hgen'
        by_cases hce : counts.isEmpty
        · rw [if_pos hce] at h
          have hcounts' : counts = [] := List.isEmpty_iff.mp hce
          subst hcounts'
          have hl : acc = l := by injection h
          subst hl
          simp only [List.append_nil] at hnd hmem hcover
          have hsub : acc ⊆ nodes := fun x hx => hmem x hx
          have hsup : nodes ⊆ acc := by
            intro x hx
            rcases hcover x hx with h | h
            · exact h
            · have := hinv x
              rw [if_pos ⟨hx, h⟩] at this
              simp [cntGet] at this
          exact List.Subperm.antisymm (hnd.subperm hsub) (hnodes.subperm hsup)
        · rw [if_neg hce] at h
          exact absurd h (by simp)
      · rw [if_neg hge] at h
        obtain ⟨hand, hgnd, hdisj⟩ := List.nodup_append.mp hnd
        have hdisj' : ∀ u ∈ gen, u ∉ acc := fun u hu ha => hdisj ha hu
        obtain ⟨hINV, Δ, hΔeq, hΔnd, hΔprop, hΔcover⟩ :=
          processGen_spec nodes edges hedges gen acc counts [] hgnd hdisj' hinv
        simp only [List.nil_append] at hΔeq
        -- disjointness of the discovered generation from the emitted nodes
        have hΔfresh : ∀ v ∈ Δ, v ∉ acc ++ gen := by
          intro v hv hmem'
          obtain ⟨⟨hvn, hvpos⟩, _⟩ := hΔprop v hv
          rcases List.mem_append.mp hmem' with hva | hvg
          · rw [hacc0 v hva] at hvpos; omega
          · rw [hgen0 v hvg] at hvpos; omega
        have hnd' : ((acc ++ gen) ++ Δ).Nodup := by
          refine List.nodup_append.mpr ⟨hnd, hΔnd, ?_⟩
          intro x hx hx'
          exact hΔfresh x hx' hx
        have hmem' : ∀ x ∈ (acc ++ gen) ++ Δ, x ∈ nodes := by
          intro x hx
          rcases List.mem_append.mp hx with hx | hx
          · exact hmem x hx
          · exact ((hΔprop x hx).1).1
        have hacc0' : ∀ v ∈ acc ++ gen, inCnt edges (acc ++ gen) v = 0 := by
          intro v hv
          rcases List.mem_append.mp hv with hva | hvg
          · have hle := inCnt_append_le edges acc gen v
            have := hacc0 v hva
            omega
          · have hle := inCnt_append_le edges acc gen v
            have := hgen0 v hvg
            omega
        have hgen0' : ∀ v ∈ Δ, inCnt edges (acc ++ gen) v = 0 := by
          intro v hv
          exact (hΔprop v hv).2
        have hcover' : ∀ x ∈ nodes, x ∈ (acc ++ gen) ++ Δ ∨ 0 < inCnt edges (acc ++ gen) x := by
          intro x hx
          rcases hcover x hx with hxm | hxpos
          · exact Or.inl (List.mem_append.mpr (Or.inl hxm))
          · by_cases hpos : 0 < inCnt edges (acc ++ gen) x
            · exact Or.inr hpos
            · have hnone : cntGet (processGen edges gen counts []).1 x = none := by
                rw [hINV x, if_neg (fun hc => hpos hc.2)]
              have hsome : cntGet counts x ≠ none := by
                rw [hinv x, if_pos ⟨hx, hxpos⟩]
                simp
              exact Or.inl (List.mem_append.mpr (Or.inr (hΔcover x hsome hnone)))
        rw [← hΔeq] at hΔnd hΔprop hΔfresh hnd' hmem' hgen0' hcover'
        exact ih (processGen edges gen counts []).1 (processGen edges gen counts []).2
          (acc ++ gen) l hnd' hmem' hINV hcover' hgen0' hacc0' h

/-- With nothing emitted yet the counter value is the full in-degree. -/
theorem inCnt_nil (edges : List (Nat × Nat)) (w : Nat) :
    inCnt edges [] w = indegAll edges w := by
  unfold inCnt indegAll
  congr 1
  apply List.filter_congr
  intro e _
  simp

/-- Lookup in the initial `indegree_map`. -/
theorem cntGet_counts0 (edges : List (Nat × Nat)) :
    ∀ (nodes : List Nat) (w : Nat),
      cntGet (nodes.filterMap (fun v =>
        let d := indegAll edges v
        if d > 0 then some (v, d) else none)) w =
      if w ∈ nodes ∧ 0 < indegAll edges w then some (indegAll edges w) else none := by
  intro nodes
  induction nodes with
  | nil => intro w; simp [cntGet]
  | cons v rest ih =>
      intro w
      by_cases hv : indegAll edges v > 0
      · simp only [List.filterMap_cons]
        rw [if_pos hv]
        simp only [cntGet]
        by_cases hw : v = w
        · subst hw
          rw [if_pos rfl, if_pos ⟨by simp, hv⟩]
        · rw [if_neg hw, ih w]
          by_cases hwr : w ∈ rest ∧ 0 < indegAll edges w
          · rw [if_pos hwr, if_pos ⟨by simp [hwr.1], hwr.2⟩]
          · rw [if_neg hwr, if_neg ?_]
            intro hc
            rcases List.mem_cons.mp hc.1 with h | h
            · exact hw h.symm
            · exact hwr ⟨h, hc.2⟩
      · simp only [List.filterMap_cons]
        rw [if_neg hv]
        rw [ih w]
        by_cases hwr : w ∈ rest ∧ 0 < indegAll edges w
        · rw [if_pos hwr, if_pos ⟨by simp [hwr.1], hwr.2⟩]
        · rw [if_neg hwr, if_neg ?_]
          intro hc
          rcases List.mem_cons.mp hc.1 with h | h
          · subst h; exact hv hc.2
          · exact hwr ⟨h, hc.2⟩

/-- `nx.topological_sort` emits a permutation of the node list whenever it
succeeds. -/
theorem topoSort_perm (nodes : List Nat) (edges : List (Nat × Nat))
    (hnodes : nodes.Nodup) (hedges : edges.Nodup) (l : List Nat)
    (h : topoSort nodes edges = some l) : l.Perm nodes := by
  unfold topoSort at h
  refine topoRounds_perm nodes edges hnodes hedges (nodes.length + 1) _ _ [] l
    ?_ ?_ ?_ ?_ ?_ ?_ h
  · simpa using hnodes.filter _
  · intro x hx
    simp only [List.nil_append] at hx
    exact (List.mem_filter.mp hx).1
  · intro w
    rw [cntGet_counts0 edges nodes w, inCnt_nil]
  · intro x hx
    by_cases h0 : indegAll edges x = 0
    · exact Or.inl (by simp [List.mem_filter, hx, h0])
    · exact Or.inr (by rw [inCnt_nil]; omega)
  · intro v hv
    simp only [List.nil_append] at hv
    have := (List.mem_filter.mp hv).2
    rw [inCnt_nil]
    exact of_decide_eq_true this
  · intro v hv
    exact absurd hv (List.not_mem_nil v)

/-- A successful dict lookup returns a stored pair. -/
theorem dictGet_mem {α : Type} (k : Nat) (v : α) :
    ∀ l : List (Nat × α), dictGet k l = some v → (k, v) ∈ l := by
  intro l
  induction l with
  | nil => intro h; simp [dictGet] at h
  | cons p rest ih =>
      intro h
      simp only [dictGet] at h
      by_cases hk : k = p.1
      · rw [if_pos hk] at h
        injection h with h
        subst hk h
        exact List.mem_cons_self _ _
      · rw [if_neg hk] at h
        exact List.mem_cons_of_mem p (ih h)

/-- Under key uniqueness every stored pair is retrievable. -/
theorem dictGet_of_mem {α : Type} :
    ∀ (l : List (Nat × α)), (l.map Prod.fst).Nodup →
      ∀ p ∈ l, dictGet p.1 l = some p.2 := by
  intro l
  induction l with
  | nil => intro _ p hp; exact absurd hp (List.not_mem_nil p)
  | cons q rest ih =>
      intro hnd p hp
      obtain ⟨hq, hrest⟩ := List.nodup_cons.mp hnd
      rcases List.mem_cons.mp hp with h | h
      · subst h
        simp [dictGet]
      · have hne : p.1 ≠ q.1 := by
          intro he
          exact hq (he ▸ List.mem_map_of_mem Prod.fst h)
        simp only [dictGet, if_neg hne]
        exact ih hrest p h

/-- A key in the dict has some value. -/
theorem dictGet_isSome_of_mem_keys {α : Type} (k : Nat) :
    ∀ l : List (Nat × α), k ∈ l.map Prod.fst → ∃ v, dictGet k l = some v := by
  intro l
  induction l with
  | nil => intro h; simp at h
  | cons p rest ih =>
      intro h
      by_cases hk : k = p.1
      · exact ⟨p.2, by simp [dictGet, hk]⟩
      · simp only [dictGet, if_neg hk]
        rcases List.mem_map.mp h with ⟨q, hq, hqk⟩
        rcases List.mem_cons.mp hq with h1 | h1
        · exact absurd (h1 ▸ hqk).symm hk
        · exact ih (hqk ▸ List.mem_map_of_mem Prod.fst h1)

/-- A registered id resolves to its stored component. -/
theorem get_component_eq (g : DependencyGraph) (i : Nat)
    (h : i ∈ g.components.map Prod.fst) :
    g.get_component i = some (valueAt g i) := by
  obtain ⟨v, hv⟩ := dictGet_isSome_of_mem_keys i g.components h
  unfold DependencyGraph.get_component valueAt
  rw [hv]
  rfl

/-- Resolution of a list of registered node ids succeeds and is the pointwise
lookup. -/
theorem resolveOrder_ok (g : DependencyGraph) :
    ∀ ids : List Nat, (∀ i ∈ ids, i ∈ g.components.map Prod.fst) →
      TJJM.resolveOrder g ids = .ok (ids.map (valueAt g)) := by
  have hmapM : ∀ ids : List Nat, (∀ i ∈ ids, i ∈ g.components.map Prod.fst) →
      ids.mapM g.get_component = some (ids.map (valueAt g)) := by
    intro ids
    induction ids with
    | nil => intro _; rfl
    | cons i rest ih =>
        intro hmem
        simp only [List.mapM_cons]
        rw [get_component_eq g i (hmem i (by simp)),
          ih (fun j hj => hmem j (List.mem_cons_of_mem i hj))]
        rfl
  intro ids hmem
  unfold TJJM.resolveOrder
  rw [hmapM ids hmem]

/-- Resolving a permutation of the registered node ids yields a permutation
of the component list. -/
theorem resolved_perm (g : DependencyGraph)
    (hkeys : (g.components.map Prod.fst).Nodup) (ids : List Nat)
    (hperm : ids.Perm (g.components.map Prod.fst)) :
    (ids.map (valueAt g)).Perm g.get_components := by
  have h1 : (ids.map (valueAt g)).Perm ((g.components.map Prod.fst).map (valueAt g)) :=
    hperm.map (valueAt g)
  have h2 : (g.components.map Prod.fst).map (valueAt g) = g.components.map Prod.snd := by
    rw [List.map_map]
    apply List.map_congr_left
    intro p hp
    have := dictGet_of_mem g.components hkeys p hp
    simp [Function.comp, valueAt, this]
  rw [h2] at h1
  exact h1

/-- Removing one edge yields a sublist. -/
theorem removeEdge_sublist (e : Nat × Nat) :
    ∀ edges : List (Nat × Nat), (removeEdge edges e).Sublist edges := by
  intro edges
  induction edges with
  | nil => simp [removeEdge]
  | cons f rest ih =>
      simp only [removeEdge]
      by_cases hf : f = e
      · rw [if_pos hf]
        exact (List.sublist_cons_self f rest)
      · rw [if_neg hf]
        exact List.Sublist.cons₂ f ih

/-- Removing a list of edges yields a sublist. -/
theorem removeEdges_sublist :
    ∀ (es edges : List (Nat × Nat)), (removeEdges edges es).Sublist edges := by
  intro es
  induction es with
  | nil => intro edges; simp [removeEdges]
  | cons e rest ih =>
      intro edges
      show (removeEdges (removeEdge edges e) rest).Sublist edges
      exact (ih (removeEdge edges e)).trans (removeEdge_sublist e edges)

/-- A list of components with distinct ids drawn from a component list of the
same or smaller length and distinct ids is a permutation of it. -/
theorem perm_of_sub_of_len (comps R : List Component)
    (hRnd : (R.map Component.id).Nodup)
    (hsub : ∀ c ∈ R, c ∈ comps)
    (hlen : comps.length ≤ R.length) : R.Perm comps := by
  have hRnd' : R.Nodup := hRnd.of_map
  have hsp : R.Subperm comps := hRnd'.subperm hsub
  obtain ⟨m, hm, hms⟩ := hsp
  have hlen2 : m.length = comps.length := by
    have h1 : m.length = R.length := hm.length_eq
    have h2 : m.length ≤ comps.length := hms.length_le
    omega
  have : m = comps := hms.eq_of_length hlen2
  subst this
  exact hm.symm

/-- A successful TJJM run returns an order that permutes the component list. -/
theorem tjjm_order_perm (g : DependencyGraph) (hwf : WF g) (r : TestOrderResult)
    (h : TJJM.generate_order g = .ok r) :
    r.order.Perm g.get_components := by
  obtain ⟨hkeys, hids, hnodes_eq, hadj, hrels, hedges⟩ := hwf
  have hnodes_nd : g.nodes.Nodup := hnodes_eq ▸ hkeys
  unfold TJJM.generate_order at h
  simp only [bind, pure] at h
  split at h
  · -- acyclic branch
    split at h
    · exact absurd h (by simp)
    · rename_i nodeOrder hts
      obtain ⟨cs, hcs, h⟩ := exceptBind_ok h
      simp only [Except.pure, Except.ok.injEq] at h
      subst h
      have hperm : nodeOrder.Perm g.nodes :=
        topoSort_perm g.nodes g.edgePairs hnodes_nd hedges nodeOrder hts
      have hmem : ∀ i ∈ nodeOrder, i ∈ g.components.map Prod.fst := by
        intro i hi
        exact hnodes_eq ▸ hperm.mem_iff.mp hi
      rw [resolveOrder_ok g nodeOrder hmem] at hcs
      injection hcs with hcs
      subst hcs
      simp only [Base.create_result]
      exact (List.reverse_perm _).trans
        (resolved_perm g hkeys nodeOrder (hnodes_eq ▸ hperm))
  · -- cyclic branch
    split at h
    · exact absurd h (by simp)
    · rename_i nodeOrder hts
      obtain ⟨cs, hcs, h⟩ := exceptBind_ok h
      simp only [Except.pure, Except.ok.injEq] at h
      subst h
      have hperm : nodeOrder.Perm g.nodes := by
        refine topoSort_perm g.nodes _ hnodes_nd ?_ nodeOrder hts
        exact (removeEdges_sublist _ g.edgePairs).nodup hedges
      have hmem : ∀ i ∈ nodeOrder.reverse, i ∈ g.components.map Prod.fst := by
        intro i hi
        rw [List.mem_reverse] at hi
        exact hnodes_eq ▸ hperm.mem_iff.mp hi
      rw [resolveOrder_ok g nodeOrder.reverse hmem] at hcs
      injection hcs with hcs
      subst hcs
      simp only [Base.create_result]
      exact resolved_perm g hkeys nodeOrder.reverse
        (hnodes_eq ▸ ((List.reverse_perm nodeOrder).trans hperm))

/-- A successful BLW run returns an order that permutes the component list. -/
theorem blw_order_perm (g : DependencyGraph) (hwf : WF g) (r : TestOrderResult)
    (h : BLW.generate_order g = .ok r) :
    r.order.Perm g.get_components := by
  obtain ⟨hkeys, hids, hnodes_eq, hadj, hrels, hedges⟩ := hwf
  have hnodes_nd : g.nodes.Nodup := hnodes_eq ▸ hkeys
  unfold BLW.generate_order at h
  simp only [bind, pure] at h
  split at h
  · -- acyclic branch
    split at h
    · exact absurd h (by simp)
    · rename_i nodeOrder hts
      obtain ⟨cs, hcs, h⟩ := exceptBind_ok h
      simp only [Except.pure, Except.ok.injEq] at h
      subst h
      have hperm : nodeOrder.Perm g.nodes :=
        topoSort_perm g.nodes g.edgePairs hnodes_nd hedges nodeOrder hts
      have hmem : ∀ i ∈ nodeOrder, i ∈ g.components.map Prod.fst := by
        intro i hi
        exact hnodes_eq ▸ hperm.mem_iff.mp hi
      rw [resolveOrder_ok g nodeOrder hmem] at hcs
      injection hcs with hcs
      subst hcs
      simp only [Base.create_result]
      exact (List.reverse_perm _).trans
        (resolved_perm g hkeys nodeOrder (hnodes_eq ▸ hperm))
  · -- cyclic branch
    obtain ⟨ri, hri, h⟩ := exceptBind_ok h
    split at h
    · exact absurd h (by simp)
    · rename_i nodeOrder hts
      obtain ⟨cs, hcs, h⟩ := exceptBind_ok h
      obtain ⟨sc, hsc, h⟩ := exceptBind_ok h
      obtain ⟨stubs, tc⟩ := sc
      simp only [Except.pure, Except.ok.injEq] at h
      subst h
      have hperm : nodeOrder.Perm g.nodes := by
        refine topoSort_perm g.nodes _ hnodes_nd ?_ nodeOrder hts
        exact (removeEdges_sublist _ g.edgePairs).nodup hedges
      have hmem : ∀ i ∈ nodeOrder.reverse, i ∈ g.components.map Prod.fst := by
        intro i hi
        rw [List.mem_reverse] at hi
        exact hnodes_eq ▸ hperm.mem_iff.mp hi
      rw [resolveOrder_ok g nodeOrder.reverse hmem] at hcs
      injection hcs with hcs
      subst hcs
      simp only [Base.create_result]
      exact resolved_perm g hkeys nodeOrder.reverse
        (hnodes_eq ▸ ((List.reverse_perm nodeOrder).trans hperm))

/-- While any component is unassigned (by counting), an unassigned component
exists. -/
theorem td_exists_unassigned (comps : List Component) (assigned : List Nat)
    (hinj : (comps.map Component.id).Nodup)
    (hlt : assigned.length < comps.length) :
    ∃ c ∈ comps, c.id ∉ assigned := by
  by_contra hno
  push_neg at hno
  have hsub : comps.map Component.id ⊆ assigned := by
    intro i hi
    obtain ⟨c, hc, hci⟩ := List.mem_map.mp hi
    exact hci ▸ hno c hc
  have := (hinj.subperm hsub).length_le
  simp only [List.length_map] at this
  omega

/-- The cycle-fallback scan returns an unassigned member of the scanned list
(or of the running best). -/
theorem cycleFallback_go_mem (rels : List Relationship) (assigned : List Nat)
    (comps : List Component) :
    ∀ (l : List Component) (best : Option (Component × Nat)),
      (∀ x ∈ l, x ∈ comps) →
      (∀ pr, best = some pr → pr.1 ∈ comps ∧ pr.1.id ∉ assigned) →
      ∀ c, TaiDaniels.cycleFallback.go rels assigned l best = some c →
        c ∈ comps ∧ c.id ∉ assigned := by
  intro l
  induction l with
  | nil =>
      intro best _ hbest c hc
      simp only [TaiDaniels.cycleFallback.go] at hc
      cases best with
      | none => simp at hc
      | some pr =>
          simp only [Option.map_some'] at hc
          injection hc with hc
          exact hc ▸ hbest pr rfl
  | cons x rest ih =>
      intro best hl hbest c hc
      have hrest : ∀ y ∈ rest, y ∈ comps := fun y hy => hl y (List.mem_cons_of_mem x hy)
      simp only [TaiDaniels.cycleFallback.go] at hc
      by_cases hx : x.id ∈ assigned
      · rw [if_pos hx] at hc
        exact ih best hrest hbest c hc
      · rw [if_neg hx] at hc
        split at hc
        · exact ih _ hrest
            (fun pr hpr => by
              injection hpr with hpr
              exact hpr ▸ ⟨hl x (by simp), hx⟩) c hc
        · rename_i b bc
          split at hc
          · exact ih _ hrest
              (fun q hq => by
                injection hq with hq
                exact hq ▸ ⟨hl x (by simp), hx⟩) c hc
          · exact ih _ hrest
              (fun q hq => by
                injection hq with hq
                exact hq ▸ hbest (b, bc) rfl) c hc

/-- The cycle-fallback scan succeeds when the scanned list holds an unassigned
component (or a best is already at hand). -/
theorem cycleFallback_go_isSome (rels : List Relationship) (assigned : List Nat) :
    ∀ (l : List Component) (best : Option (Component × Nat)),
      ((∃ c ∈ l, c.id ∉ assigned) ∨ best.isSome) →
      (TaiDaniels.cycleFallback.go rels assigned l best).isSome := by
  intro l
  induction l with
  | nil =>
      intro best h
      rcases h with ⟨c, hc, _⟩ | h
      · exact absurd hc (List.not_mem_nil c)
      · simp only [TaiDaniels.cycleFallback.go]
        cases best with
        | none => simp at h
        | some pr => simp
  | cons x rest ih =>
      intro best h
      simp only [TaiDaniels.cycleFallback.go]
      by_cases hx : x.id ∈ assigned
      · rw [if_pos hx]
        apply ih
        rcases h with ⟨c, hc, hcn⟩ | h
        · rcases List.mem_cons.mp hc with rfl | hc
          · exact absurd hx hcn
          · exact Or.inl ⟨c, hc, hcn⟩
        · exact Or.inr h
      · rw [if_neg hx]
        split
        · exact ih _ (Or.inr rfl)
        · split
          · exact ih _ (Or.inr rfl)
          · exact ih _ (Or.inr rfl)

/-- One iteration of the level-assignment loop is productive: it yields a
non-empty batch of fresh components with distinct ids. -/
theorem step_spec (comps : List Component) (rels : List Relationship)
    (assigned : List Nat)
    (hinj : (comps.map Component.id).Nodup)
    (hlt : assigned.length < comps.length) :
    TaiDaniels.step comps rels assigned ≠ [] ∧
    (∀ c ∈ TaiDaniels.step comps rels assigned, c ∈ comps ∧ c.id ∉ assigned) ∧
    ((TaiDaniels.step comps rels assigned).map Component.id).Nodup := by
  obtain ⟨c0, hc0, hc0n⟩ := td_exists_unassigned comps assigned hinj hlt
  unfold TaiDaniels.step
  by_cases hre : (comps.filter
      (fun c => c.id ∉ assigned ∧ ¬ TaiDaniels.hasUnassignedDeps rels assigned c)).isEmpty
  · rw [if_pos hre]
    have hsome := cycleFallback_go_isSome rels assigned comps none
      (Or.inl ⟨c0, hc0, hc0n⟩)
    show (match TaiDaniels.cycleFallback comps rels assigned with
      | some c => [c] | none => []) ≠ [] ∧ _ ∧ _
    cases hcf : TaiDaniels.cycleFallback comps rels assigned with
    | none =>
        unfold TaiDaniels.cycleFallback at hcf
        rw [hcf] at hsome
        simp at hsome
    | some c =>
        have hmem := cycleFallback_go_mem rels assigned comps comps none
          (fun x hx => hx) (fun pr hpr => by simp at hpr) c hcf
        refine ⟨by simp, ?_, by simp⟩
        intro x hx
        rcases List.mem_singleton.mp hx with rfl
        exact hmem
  · rw [if_neg hre]
    refine ⟨fun he => hre (by rw [he]; rfl), ?_, ?_⟩
    · intro c hc
      obtain ⟨h1, h2⟩ := List.mem_filter.mp hc
      have h2' := of_decide_eq_true h2
      exact ⟨h1, h2'.1⟩
    · exact ((List.filter_sublist comps).map Component.id).nodup hinj

/-- The level-assignment loop with enough fuel collects every component
exactly once: the emitted batches are fresh, id-distinct, and jointly at
least as long as the component list. -/
theorem assignLevelsAux_spec (comps : List Component) (rels : List Relationship)
    (hinj : (comps.map Component.id).Nodup) :
    ∀ (fuel : Nat) (assigned : List Nat) (lvl : Nat),
      assigned.Nodup → (∀ i ∈ assigned, i ∈ comps.map Component.id) →
      comps.length ≤ assigned.length + fuel →
      (assigned ++ ((TaiDaniels.assignLevelsAux comps rels fuel assigned lvl).flatMap
          (fun p => p.2)).map Component.id).Nodup ∧
      (∀ c ∈ (TaiDaniels.assignLevelsAux comps rels fuel assigned lvl).flatMap (fun p => p.2),
        c ∈ comps) ∧
      comps.length ≤ assigned.length +
        ((TaiDaniels.assignLevelsAux comps rels fuel assigned lvl).flatMap (fun p => p.2)).length := by
  intro fuel
  induction fuel with
  | zero =>
      intro assigned lvl hand _ hfuel
      simp only [TaiDaniels.assignLevelsAux, List.flatMap_nil, List.map_nil, List.append_nil,
        List.length_nil]
      exact ⟨hand, fun c hc => absurd hc (List.not_mem_nil c), by omega⟩
  | succ fuel ih =>
      intro assigned lvl hand hmem hfuel
      by_cases hlt : assigned.length < comps.length
      · have hstep := step_spec comps rels assigned hinj hlt
        obtain ⟨hne, hfresh, hndlc⟩ := hstep
        simp only [TaiDaniels.assignLevelsAux, if_pos hlt]
        set lc := TaiDaniels.step comps rels assigned with hlc
        have hand' : (assigned ++ lc.map Component.id).Nodup := by
          refine List.nodup_append.mpr ⟨hand, hndlc, ?_⟩
          intro i hi hi'
          obtain ⟨c, hc, rfl⟩ := List.mem_map.mp hi'
          exact (hfresh c hc).2 hi
        have hmem' : ∀ i ∈ assigned ++ lc.map Component.id, i ∈ comps.map Component.id := by
          intro i hi
          rcases List.mem_append.mp hi with hi | hi
          · exact hmem i hi
          · obtain ⟨c, hc, rfl⟩ := List.mem_map.mp hi
            exact List.mem_map_of_mem Component.id (hfresh c hc).1
        have hlen' : comps.length ≤ (assigned ++ lc.map Component.id).length + fuel := by
          have h1 : 1 ≤ lc.length := by
            cases hlcc : lc with
            | nil => exact absurd hlcc hne
            | cons a l => simp
          simp only [List.length_append, List.length_map]
          omega
        obtain ⟨ih1, ih2, ih3⟩ := ih (assigned ++ lc.map Component.id) (lvl + 1)
          hand' hmem' hlen'
        refine ⟨?_, ?_, ?_⟩
        · simpa only [List.flatMap_cons, List.map_append, List.append_assoc] using ih1
        · intro c hc
          simp only [List.flatMap_cons] at hc
          rcases List.mem_append.mp hc with hc | hc
          · exact (hfresh c hc).1
          · exact ih2 c hc
        · simp only [List.flatMap_cons, List.length_append]
          simp only [List.length_append, List.length_map] at ih3
          omega
      · simp only [TaiDaniels.assignLevelsAux, if_neg hlt]
        simp only [List.flatMap_nil, List.map_nil, List.append_nil, List.length_nil]
        exact ⟨hand, fun c hc => absurd hc (List.not_mem_nil c), by omega⟩

/-- Stable insertion permutes the extended list. -/
theorem insertStable_perm {α : Type} (lt : α → α → Bool) (x : α) :
    ∀ l : List α, (insertStable lt x l).Perm (x :: l) := by
  intro l
  induction l with
  | nil => simp [insertStable]
  | cons y ys ih =>
      simp only [insertStable]
      by_cases hxy : lt x y
      · rw [if_pos hxy]
      · rw [if_neg hxy]
        exact (ih.cons y).trans (List.Perm.swap x y ys)

/-- The stable sort of Python `sorted` permutes its input. -/
theorem stableSort_perm {α : Type} (lt : α → α → Bool) (l : List α) :
    (stableSort lt l).Perm l := by
  have haux : ∀ (l acc : List α),
      (l.foldl (fun a x => insertStable lt x a) acc).Perm (acc ++ l) := by
    intro l
    induction l with
    | nil => intro acc; simp
    | cons x xs ih =>
        intro acc
        simp only [List.foldl_cons]
        refine (ih (insertStable lt x acc)).trans ?_
        refine (List.Perm.append_right xs (insertStable_perm lt x acc)).trans ?_
        exact List.perm_middle.symm
  simpa using haux l []

/-- Pointwise permutations lift through `flatMap`. -/
theorem flatMap_perm_congr {α β : Type} :
    ∀ (l : List α) (f g : α → List β), (∀ a ∈ l, (f a).Perm (g a)) →
      (l.flatMap f).Perm (l.flatMap g) := by
  intro l
  induction l with
  | nil => intro f g _; simp
  | cons x xs ih =>
      intro f g h
      simp only [List.flatMap_cons]
      exact (h x (by simp)).append (ih f g (fun a ha => h a (List.mem_cons_of_mem x ha)))

/-- The Tai-Daniels order is a permutation of the component list. -/
theorem td_order_perm (g : DependencyGraph) (hwf : WF g) :
    (TaiDaniels.generate_order g).order.Perm g.get_components := by
  obtain ⟨hkeys, hids, hnodes_eq, hadj, hrels, hedges⟩ := hwf
  have hinj : ((g.get_components).map Component.id).Nodup := by
    have : (g.get_components).map Component.id = g.components.map Prod.fst := by
      unfold DependencyGraph.get_components
      rw [List.map_map]
      apply List.map_congr_left
      intro p hp
      exact (hids p hp).symm
    rw [this]
    exact hkeys
  obtain ⟨h1, h2, h3⟩ := assignLevelsAux_spec g.get_components g.get_relationships hinj
    (g.get_components).length [] 0 (by simp) (by simp) (by simp)
  simp only [List.nil_append, List.length_nil, Nat.zero_add] at h1 h2 h3
  have hO : (TaiDaniels.generate_order g).order =
      TaiDaniels.order_within_levels g g.get_relationships
        (TaiDaniels.assign_levels g.get_components g.get_relationships) := by
    simp [TaiDaniels.generate_order, Base.create_result]
  rw [hO]
  unfold TaiDaniels.order_within_levels
  refine (flatMap_perm_congr _ _ (fun p => p.2) ?_).trans ?_
  · intro p _
    exact stableSort_perm _ p.2
  · exact perm_of_sub_of_len g.get_components _ h1 h2 h3

/-- Membership in the deduplication loop. -/
theorem mem_dedupNatAux : ∀ (l seen : List Nat) (x : Nat),
    x ∈ dedupNatAux l seen ↔ x ∈ l ∧ x ∉ seen := by
  intro l
  induction l with
  | nil => intro seen x; simp [dedupNatAux]
  | cons y ys ih =>
      intro seen x
      simp only [dedupNatAux]
      by_cases hy : y ∈ seen
      · rw [if_pos hy, ih]
        constructor
        · rintro ⟨h1, h2⟩
          exact ⟨List.mem_cons_of_mem y h1, h2⟩
        · rintro ⟨h1, h2⟩
          rcases List.mem_cons.mp h1 with rfl | h1
          · exact absurd hy h2
          · exact ⟨h1, h2⟩
      · rw [if_neg hy]
        constructor
        · intro hx
          rcases List.mem_cons.mp hx with rfl | hx
          · exact ⟨List.mem_cons_self _ _, hy⟩
          · obtain ⟨h1, h2⟩ := (ih (y :: seen) x).mp hx
            exact ⟨List.mem_cons_of_mem y h1, fun hs => h2 (List.mem_cons_of_mem y hs)⟩
        · rintro ⟨h1, h2⟩
          rcases List.mem_cons.mp h1 with rfl | h1
          · exact List.mem_cons_self _ _
          · by_cases hxy : x = y
            · exact hxy ▸ List.mem_cons_self _ _
            · refine List.mem_cons_of_mem y ((ih (y :: seen) x).mpr ⟨h1, fun hs => ?_⟩)
              rcases List.mem_cons.mp hs with h | h
              · exact hxy h
              · exact h2 h

/-- The deduplication loop yields distinct elements. -/
theorem nodup_dedupNatAux : ∀ (l seen : List Nat), (dedupNatAux l seen).Nodup := by
  intro l
  induction l with
  | nil => intro seen; simp [dedupNatAux]
  | cons y ys ih =>
      intro seen
      simp only [dedupNatAux]
      by_cases hy : y ∈ seen
      · rw [if_pos hy]; exact ih seen
      · rw [if_neg hy]
        refine List.nodup_cons.mpr ⟨?_, ih (y :: seen)⟩
        intro hmem
        exact ((mem_dedupNatAux ys (y :: seen) y).mp hmem).2 (by simp)

/-- Membership in `dedupNat`. -/
theorem mem_dedupNat (l : List Nat) (x : Nat) : x ∈ dedupNat l ↔ x ∈ l := by
  unfold dedupNat
  rw [mem_dedupNatAux]
  simp

/-- `dedupNat` yields distinct elements. -/
theorem nodup_dedupNat (l : List Nat) : (dedupNat l).Nodup := nodup_dedupNatAux l []

/-- Membership after one expansion step. -/
theorem mem_reachStep (edges : List (Nat × Nat)) (acc : List Nat) (x : Nat) :
    x ∈ reachStep edges acc ↔
      x ∈ acc ∨ (x ∉ acc ∧ ∃ e ∈ edges, e.1 ∈ acc ∧ e.2 = x) := by
  unfold reachStep
  rw [List.mem_append, mem_dedupNat]
  constructor
  · rintro (h | h)
    · exact Or.inl h
    · obtain ⟨e, he, hx⟩ := List.mem_map.mp h
      obtain ⟨he1, he2⟩ := List.mem_filter.mp he
      have := of_decide_eq_true he2
      exact Or.inr ⟨hx ▸ this.2, e, he1, this.1, hx⟩
  · rintro (h | ⟨hnx, e, he, h1, rfl⟩)
    · exact Or.inl h
    · refine Or.inr (List.mem_map.mpr ⟨e, List.mem_filter.mpr ⟨he, ?_⟩, rfl⟩)
      exact decide_eq_true ⟨h1, hnx⟩

/-- The expansion step preserves distinctness. -/
theorem reachStep_nodup (edges : List (Nat × Nat)) (acc : List Nat)
    (h : acc.Nodup) : (reachStep edges acc).Nodup := by
  unfold reachStep
  refine List.nodup_append.mpr ⟨h, nodup_dedupNat _, ?_⟩
  intro x hx hx'
  rw [mem_dedupNat] at hx'
  obtain ⟨e, he, hex⟩ := List.mem_map.mp hx'
  have := of_decide_eq_true (List.mem_filter.mp he).2
  exact (hex ▸ this.2) hx

/-- The expansion step stays inside the node set when edge targets do. -/
theorem reachStep_subset (nodes : List Nat) (edges : List (Nat × Nat))
    (hclosed : ∀ e ∈ edges, e.2 ∈ nodes) (acc : List Nat) (hacc : acc ⊆ nodes) :
    reachStep edges acc ⊆ nodes := by
  intro x hx
  rcases (mem_reachStep edges acc x).mp hx with h | ⟨_, e, he, _, rfl⟩
  · exact hacc h
  · exact hclosed e he

/-- A fixed point of the expansion step absorbs the whole iteration. -/
theorem reachAux_of_fix (edges : List (Nat × Nat)) :
    ∀ (f : Nat) (acc : List Nat), reachStep edges acc = acc →
      reachAux edges f acc = acc := by
  intro f
  induction f with
  | zero => intro acc _; rfl
  | succ f ih =>
      intro acc hfix
      show reachAux edges f (reachStep edges acc) = acc
      rw [hfix]
      exact ih acc hfix

/-- Enough fuel drives the expansion to a fixed point. -/
theorem reach_fix (nodes : List Nat) (edges : List (Nat × Nat))
    (hnodes : nodes.Nodup) (hclosed : ∀ e ∈ edges, e.2 ∈ nodes) :
    ∀ (f : Nat) (acc : List Nat), acc.Nodup → acc ⊆ nodes →
      nodes.length + 1 ≤ acc.length + f →
      reachStep edges (reachAux edges f acc) = reachAux edges f acc := by
  intro f
  induction f with
  | zero =>
      intro acc hand hsub hlen
      have := (hand.subperm hsub).length_le
      omega
  | succ f ih =>
      intro acc hand hsub hlen
      show reachStep edges (reachAux edges f (reachStep edges acc)) = _
      by_cases hfix : reachStep edges acc = acc
      · rw [hfix, reachAux_of_fix edges f acc hfix, hfix]
        exact (reachAux_of_fix edges (f + 1) acc hfix).symm
      · have hgrow : acc.length + 1 ≤ (reachStep edges acc).length := by
          unfold reachStep
          rw [List.length_append]
          cases hX : dedupNat (((edges.filter
              (fun e => e.1 ∈ acc ∧ e.2 ∉ acc)).map Prod.snd)) with
          | nil =>
              exfalso
              apply hfix
              unfold reachStep
              rw [hX, List.append_nil]
          | cons a l => simp
        exact ih (reachStep edges acc) (reachStep_nodup edges acc hand)
          (reachStep_subset nodes edges hclosed acc hsub) (by omega)

/-- The iterate contains its seed. -/
theorem subset_reachAux (edges : List (Nat × Nat)) :
    ∀ (f : Nat) (acc : List Nat), acc ⊆ reachAux edges f acc := by
  intro f
  induction f with
  | zero => intro acc; exact fun x hx => hx
  | succ f ih =>
      intro acc x hx
      show x ∈ reachAux edges f (reachStep edges acc)
      exact ih (reachStep edges acc) ((mem_reachStep edges acc x).mpr (Or.inl hx))

/-- A step-closed superset of the seed bounds the whole iteration. -/
theorem reachAux_subset_closed (edges : List (Nat × Nat)) (S : List Nat)
    (hfix : reachStep edges S = S) :
    ∀ (f : Nat) (acc : List Nat), acc ⊆ S → reachAux edges f acc ⊆ S := by
  have hstep : ∀ acc, acc ⊆ S → reachStep edges acc ⊆ S := by
    intro acc hacc x hx
    rcases (mem_reachStep edges acc x).mp hx with h | ⟨_, e, he, h1, rfl⟩
    · exact hacc h
    · by_contra hx2
      have : e.2 ∈ reachStep edges S :=
        (mem_reachStep edges S e.2).mpr (Or.inr ⟨hx2, e, he, hacc h1, rfl⟩)
      rw [hfix] at this
      exact hx2 this
  intro f
  induction f with
  | zero => intro acc h; exact h
  | succ f ih =>
      intro acc hacc
      exact ih (reachStep edges acc) (hstep acc hacc)

/-- A node reaches itself. -/
theorem self_mem_reachableFrom (edges : List (Nat × Nat)) (n : Nat) (u : Nat) :
    u ∈ reachableFrom edges n u :=
  subset_reachAux edges n [u] (by simp)

/-- Reachability is transitive (with the fuel used by the embedding). -/
theorem reachableFrom_trans (nodes : List Nat) (edges : List (Nat × Nat))
    (hnodes : nodes.Nodup) (hclosed : ∀ e ∈ edges, e.2 ∈ nodes)
    (u v : Nat) (hu : u ∈ nodes)
    (hv : v ∈ reachableFrom edges nodes.length u) :
    reachableFrom edges nodes.length v ⊆ reachableFrom edges nodes.length u := by
  have hfix : reachStep edges (reachableFrom edges nodes.length u) =
      reachableFrom edges nodes.length u :=
    reach_fix nodes edges hnodes hclosed nodes.length [u] (by simp)
      (by intro x hx; rcases List.mem_singleton.mp hx with rfl; exact hu)
      (by simp; omega)
  exact reachAux_subset_closed edges _ hfix nodes.length [v]
    (by intro x hx; rcases List.mem_singleton.mp hx with rfl; exact hv)

/-- Membership in an SCC. -/
theorem mem_sccOf (nodes : List Nat) (edges : List (Nat × Nat)) (u v : Nat) :
    v ∈ sccOf nodes edges u ↔
      v ∈ nodes ∧ v ∈ reachableFrom edges nodes.length u ∧
        u ∈ reachableFrom edges nodes.length v := by
  unfold sccOf
  constructor
  · intro h
    obtain ⟨h1, h2⟩ := List.mem_filter.mp h
    have := of_decide_eq_true h2
    exact ⟨h1, this.1, this.2⟩
  · rintro ⟨h1, h2, h3⟩
    exact List.mem_filter.mpr ⟨h1, decide_eq_true ⟨h2, h3⟩⟩

/-- A node lies in its own SCC. -/
theorem self_mem_sccOf (nodes : List Nat) (edges : List (Nat × Nat)) (u : Nat)
    (hu : u ∈ nodes) : u ∈ sccOf nodes edges u :=
  (mem_sccOf nodes edges u u).mpr
    ⟨hu, self_mem_reachableFrom edges nodes.length u,
      self_mem_reachableFrom edges nodes.length u⟩

/-- SCC membership is symmetric. -/
theorem sccOf_symm (nodes : List Nat) (edges : List (Nat × Nat)) (u v : Nat)
    (hu : u ∈ nodes) (h : v ∈ sccOf nodes edges u) : u ∈ sccOf nodes edges v := by
  obtain ⟨h1, h2, h3⟩ := (mem_sccOf nodes edges u v).mp h
  exact (mem_sccOf nodes edges v u).mpr ⟨hu, h3, h2⟩

/-- Members of one SCC generate the same SCC. -/
theorem sccOf_congr (nodes : List Nat) (edges : List (Nat × Nat))
    (hnodes : nodes.Nodup) (hclosed : ∀ e ∈ edges, e.2 ∈ nodes) (u v : Nat)
    (hu : u ∈ nodes) (hv : v ∈ sccOf nodes edges u) :
    sccOf nodes edges v = sccOf nodes edges u := by
  obtain ⟨hvn, hvR, huR⟩ := (mem_sccOf nodes edges u v).mp hv
  unfold sccOf
  apply List.filter_congr
  intro w hw
  apply decide_eq_decide.mpr
  constructor
  · rintro ⟨hwRv, hvRw⟩
    constructor
    · exact reachableFrom_trans nodes edges hnodes hclosed u v hu hvR hwRv
    · exact reachableFrom_trans nodes edges hnodes hclosed w v hw hvRw huR
  · rintro ⟨hwRu, huRw⟩
    constructor
    · exact reachableFrom_trans nodes edges hnodes hclosed v u hvn huR hwRu
    · exact reachableFrom_trans nodes edges hnodes hclosed w u hw huRw hvR

/-- The SCC enumeration loop: distinct fresh nodes, and every unseen listed
node is covered. -/
theorem sccList_go_spec (nodes : List Nat) (edges : List (Nat × Nat))
    (hnodes : nodes.Nodup) (hclosed : ∀ e ∈ edges, e.2 ∈ nodes) :
    ∀ (l seen : List Nat), l ⊆ nodes → seen ⊆ nodes → seen.Nodup →
      (∀ v ∈ seen, sccOf nodes edges v ⊆ seen) →
      (sccList.go nodes edges l seen).flatten.Nodup ∧
      (∀ v ∈ (sccList.go nodes edges l seen).flatten, v ∈ nodes ∧ v ∉ seen) ∧
      (∀ v ∈ l, v ∉ seen → v ∈ (sccList.go nodes edges l seen).flatten) := by
  intro l
  induction l with
  | nil =>
      intro seen _ _ _ _
      simp only [sccList.go, List.flatten_nil]
      exact ⟨List.nodup_nil, fun v hv => absurd hv (List.not_mem_nil v),
        fun v hv => absurd hv (List.not_mem_nil v)⟩
  | cons u rest ih =>
      intro seen hl hseen hsnd hscl
      have hrest : rest ⊆ nodes := fun x hx => hl (List.mem_cons_of_mem u hx)
      have hun : u ∈ nodes := hl (List.mem_cons_self u rest)
      simp only [sccList.go]
      by_cases hu : u ∈ seen
      · rw [if_pos hu]
        obtain ⟨h1, h2, h3⟩ := ih seen hrest hseen hsnd hscl
        refine ⟨h1, h2, ?_⟩
        intro v hv hvs
        rcases List.mem_cons.mp hv with rfl | hv
        · exact absurd hu hvs
        · exact h3 v hv hvs
      · rw [if_neg hu]
        set s := sccOf nodes edges u with hs
        have hsub : s ⊆ nodes := fun x hx => (List.mem_filter.mp hx).1
        have hsnd2 : s.Nodup := hnodes.filter _
        have hus : u ∈ s := self_mem_sccOf nodes edges u hun
        have hdisj : ∀ v ∈ s, v ∉ seen := by
          intro v hv hvse
          have h1 : sccOf nodes edges v ⊆ seen := hscl v hvse
          have h2 : u ∈ sccOf nodes edges v := sccOf_symm nodes edges u v hun hv
          exact hu (h1 h2)
        have hseen' : (seen ++ s) ⊆ nodes := by
          intro x hx
          rcases List.mem_append.mp hx with h | h
          · exact hseen h
          · exact hsub h
        have hsnd' : (seen ++ s).Nodup :=
          List.nodup_append.mpr ⟨hsnd, hsnd2, fun x hx hx' => hdisj x hx' hx⟩
        have hscl' : ∀ v ∈ seen ++ s, sccOf nodes edges v ⊆ seen ++ s := by
          intro v hv
          rcases List.mem_append.mp hv with h | h
          · exact fun x hx => List.mem_append.mpr (Or.inl (hscl v h hx))
          · rw [sccOf_congr nodes edges hnodes hclosed u v hun h]
            exact fun x hx => List.mem_append.mpr (Or.inr hx)
        obtain ⟨ihnd, ihmem, ihcov⟩ := ih (seen ++ s) hrest hseen' hsnd' hscl'
        simp only [List.flatten_cons]
        refine ⟨?_, ?_, ?_⟩
        · refine List.nodup_append.mpr ⟨hsnd2, ihnd, ?_⟩
          intro x hx hx'
          exact (ihmem x hx').2 (List.mem_append.mpr (Or.inr hx))
        · intro v hv
          rcases List.mem_append.mp hv with h | h
          · exact ⟨hsub h, hdisj v h⟩
          · obtain ⟨h1, h2⟩ := ihmem v h
            exact ⟨h1, fun hv2 => h2 (List.mem_append.mpr (Or.inl hv2))⟩
        · intro v hv hvs
          rcases List.mem_cons.mp hv with rfl | hv
          · exact List.mem_append.mpr (Or.inl hus)
          · by_cases hv2 : v ∈ seen ++ s
            · rcases List.mem_append.mp hv2 with h | h
              · exact absurd h hvs
              · exact List.mem_append.mpr (Or.inl h)
            · exact List.mem_append.mpr (Or.inr (ihcov v hv hv2))

/-- Every listed SCC is the SCC of one of its nodes. -/
theorem sccList_go_classes (nodes : List Nat) (edges : List (Nat × Nat)) :
    ∀ (l seen : List Nat), l ⊆ nodes →
      ∀ s ∈ sccList.go nodes edges l seen, ∃ u ∈ nodes, s = sccOf nodes edges u := by
  intro l
  induction l with
  | nil =>
      intro seen _ s hs
      simp [sccList.go] at hs
  | cons u rest ih =>
      intro seen hl s hs
      have hrest : rest ⊆ nodes := fun x hx => hl (List.mem_cons_of_mem u hx)
      simp only [sccList.go] at hs
      by_cases hu : u ∈ seen
      · rw [if_pos hu] at hs
        exact ih seen hrest s hs
      · rw [if_neg hu] at hs
        rcases List.mem_cons.mp hs with rfl | hs
        · exact ⟨u, hl (List.mem_cons_self u rest), rfl⟩
        · exact ih _ hrest s hs

/-- The SCC decomposition partitions the node list. -/
theorem sccList_flatten_perm (nodes : List Nat) (edges : List (Nat × Nat))
    (hnodes : nodes.Nodup) (hclosed : ∀ e ∈ edges, e.2 ∈ nodes) :
    (sccList nodes edges).flatten.Perm nodes := by
  obtain ⟨h1, h2, h3⟩ := sccList_go_spec nodes edges hnodes hclosed nodes []
    (fun x hx => hx) (by simp) List.nodup_nil (by simp)
  exact List.Subperm.antisymm
    (h1.subperm (fun x hx => (h2 x hx).1))
    (hnodes.subperm (fun x hx => h3 x hx (List.not_mem_nil x)))

/-- A stored key is among the dict keys. -/
theorem dictGet_some_mem_keys {α : Type} (k : Nat) (v : α) (l : List (Nat × α))
    (h : dictGet k l = some v) : k ∈ l.map Prod.fst := by
  have := dictGet_mem k v l h
  exact List.mem_map.mpr ⟨(k, v), this, rfl⟩

/-- Under the graph invariants the component ids are the dict keys. -/
theorem compIds_eq (g : DependencyGraph) (hids : ∀ p ∈ g.components, p.1 = p.2.id) :
    (g.get_components).map Component.id = g.components.map Prod.fst := by
  unfold DependencyGraph.get_components
  rw [List.map_map]
  apply List.map_congr_left
  intro p hp
  exact (hids p hp).symm

/-- Adding a present node is a no-op. -/
theorem addNode_mem (nodes : List Nat) (v : Nat) (h : v ∈ nodes) :
    addNode nodes v = nodes := by
  unfold addNode
  rw [if_pos h]

/-- The weighted graph of MDTOG has exactly the registered nodes. -/
theorem weightedNodes_eq (g : DependencyGraph)
    (hids : ∀ p ∈ g.components, p.1 = p.2.id)
    (hrels : ∀ r ∈ g.relationships,
      dictGet r.2.source.id g.components = some r.2.source ∧
      dictGet r.2.target.id g.components = some r.2.target) :
    MDTOG.weightedNodes g = g.components.map Prod.fst := by
  unfold MDTOG.weightedNodes
  rw [compIds_eq g hids]
  have haux : ∀ (rl : List Relationship) (acc : List Nat),
      (∀ r ∈ rl, r.source.id ∈ acc ∧ r.target.id ∈ acc) →
      rl.foldl (fun a r => addNode (addNode a r.source.id) r.target.id) acc = acc := by
    intro rl
    induction rl with
    | nil => intro acc _; rfl
    | cons r rest ih =>
        intro acc hmem
        obtain ⟨h1, h2⟩ := hmem r (by simp)
        simp only [List.foldl_cons, addNode_mem _ _ h1, addNode_mem _ _ h2]
        exact ih acc (fun q hq => hmem q (List.mem_cons_of_mem r hq))
  apply haux
  intro r hr
  obtain ⟨p, hp, rfl⟩ := List.mem_map.mp hr
  obtain ⟨hs, ht⟩ := hrels p hp
  exact ⟨dictGet_some_mem_keys _ _ _ hs, dictGet_some_mem_keys _ _ _ ht⟩

/-- The weighted edge accumulation yields distinct pairs built from the
relationships. -/
theorem weightedEdges_spec :
    ∀ (rl : List Relationship) (acc : List (Nat × Nat)), acc.Nodup →
      (rl.foldl (fun a r =>
        if (r.source.id, r.target.id) ∈ a then a else a ++ [(r.source.id, r.target.id)])
        acc).Nodup ∧
      (∀ e ∈ rl.foldl (fun a r =>
        if (r.source.id, r.target.id) ∈ a then a else a ++ [(r.source.id, r.target.id)])
        acc, e ∈ acc ∨ ∃ r ∈ rl, e = (r.source.id, r.target.id)) := by
  intro rl
  induction rl with
  | nil =>
      intro acc hacc
      exact ⟨hacc, fun e he => Or.inl he⟩
  | cons r rest ih =>
      intro acc hacc
      simp only [List.foldl_cons]
      by_cases hin : (r.source.id, r.target.id) ∈ acc
      · rw [if_pos hin]
        obtain ⟨h1, h2⟩ := ih acc hacc
        refine ⟨h1, ?_⟩
        intro e he
        rcases h2 e he with h | ⟨q, hq, he2⟩
        · exact Or.inl h
        · exact Or.inr ⟨q, List.mem_cons_of_mem r hq, he2⟩
      · rw [if_neg hin]
        have hacc' : (acc ++ [(r.source.id, r.target.id)]).Nodup := by
          refine List.nodup_append.mpr ⟨hacc, List.nodup_singleton _, ?_⟩
          intro x hx hx'
          rcases List.mem_singleton.mp hx' with rfl
          exact hin hx
        obtain ⟨h1, h2⟩ := ih _ hacc'
        refine ⟨h1, ?_⟩
        intro e he
        rcases h2 e he with h | ⟨q, hq, he2⟩
        · rcases List.mem_append.mp h with h | h
          · exact Or.inl h
          · rcases List.mem_singleton.mp h with rfl
            exact Or.inr ⟨r, by simp, rfl⟩
        · exact Or.inr ⟨q, List.mem_cons_of_mem r hq, he2⟩

/-- The condensation edge accumulation yields distinct pairs. -/
theorem condensationEdges_nodup (sccs : List (List Nat)) :
    ∀ (el : List (Nat × Nat)) (acc : List (Nat × Nat)), acc.Nodup →
      (el.foldl (fun a e =>
        match MDTOG.sccIndexOf sccs e.1, MDTOG.sccIndexOf sccs e.2 with
        | some i, some j => if i ≠ j ∧ (i, j) ∉ a then a ++ [(i, j)] else a
        | _, _ => a) acc).Nodup := by
  intro el
  induction el with
  | nil => intro acc h; exact h
  | cons e rest ih =>
      intro acc hacc
      simp only [List.foldl_cons]
      cases h1 : MDTOG.sccIndexOf sccs e.1 with
      | none => exact ih acc hacc
      | some i =>
          cases h2 : MDTOG.sccIndexOf sccs e.2 with
          | none => exact ih acc hacc
          | some j =>
              show (List.foldl (fun a e =>
                  match MDTOG.sccIndexOf sccs e.1, MDTOG.sccIndexOf sccs e.2 with
                  | some i, some j => if i ≠ j ∧ (i, j) ∉ a then a ++ [(i, j)] else a
                  | _, _ => a)
                (if i ≠ j ∧ (i, j) ∉ acc then acc ++ [(i, j)] else acc) rest).Nodup
              by_cases hij : i ≠ j ∧ (i, j) ∉ acc
              · rw [if_pos hij]
                refine ih _ (List.nodup_append.mpr
                  ⟨hacc, List.nodup_singleton _, ?_⟩)
                intro x hx hx'
                rcases List.mem_singleton.mp hx' with rfl
                exact hij.2 hx
              · rw [if_neg hij]
                exact ih acc hacc

/-- Distinct indices into a duplicate-free flattened family hold disjoint
lists. -/
theorem flatten_nodup_disjoint (sccs : List (List Nat))
    (hflat : sccs.flatten.Nodup) (i j : Nat) (hi : i < sccs.length)
    (hj : j < sccs.length) (hij : i ≠ j) (u : Nat)
    (hu1 : u ∈ sccs.getD i []) (hu2 : u ∈ sccs.getD j []) : False := by
  obtain ⟨_, hpw⟩ := List.nodup_flatten.mp hflat
  rw [List.getD_eq_getElem sccs [] hi] at hu1
  rw [List.getD_eq_getElem sccs [] hj] at hu2
  rcases Nat.lt_or_ge i j with hlt | hge
  · exact (List.pairwise_iff_getElem.mp hpw i j hi hj hlt) hu1 hu2
  · have hlt : j < i := by omega
    exact (List.pairwise_iff_getElem.mp hpw j i hj hi hlt) hu2 hu1

/-- A family of singletons flattens to the indexed heads. -/
theorem flatten_eq_map_range :
    ∀ (L : List (List Nat)), (∀ i, i < L.length → ∃ u, L.getD i [] = [u]) →
      L.flatten = (List.range L.length).map (fun i => (L.getD i []).headD 0) := by
  intro L
  induction L with
  | nil => intro _; rfl
  | cons s L ih =>
      intro hsing
      obtain ⟨u, hu⟩ := hsing 0 (by simp)
      have hs : s = [u] := hu
      subst hs
      have ihh := ih (fun i hi => hsing (i + 1) (by simpa using Nat.succ_lt_succ hi))
      rw [List.flatten_cons, ihh]
      simp only [List.length_cons, List.range_succ_eq_map, List.map_cons, List.map_map,
        List.singleton_append]
      refine congrArg (fun t => u :: t) ?_
      apply List.map_congr_left
      intro i _
      rfl

/-- The ordered emission loop of `_break_cycles_and_order` on an all-singleton
SCC family: the guard never skips, every index contributes its component. -/
theorem mdtog_go_ok (g : DependencyGraph) (sccs : List (List Nat))
    (hflat : sccs.flatten.Nodup) :
    ∀ (rem processed : List Nat) (acc res : List Component),
      rem.Nodup → (∀ i ∈ rem, i < sccs.length) →
      (∀ i ∈ rem, ∀ u, sccs.getD i [] = [u] → u ∉ processed) →
      MDTOG.break_cycles_and_order.go g sccs rem processed acc = .ok res →
      (∀ i ∈ rem, ∃ u c, sccs.getD i [] = [u] ∧ g.get_component u = some c) ∧
      res = acc ++ rem.map
        (fun i => (g.get_component ((sccs.getD i []).headD 0)).getD default) := by
  intro rem
  induction rem with
  | nil =>
      intro processed acc res _ _ _ h
      simp only [MDTOG.break_cycles_and_order.go] at h
      injection h with h
      exact ⟨fun i hi => absurd hi (List.not_mem_nil i), by simp [h.symm]⟩
  | cons i rest ih =>
      intro processed acc res hnd hbound hfresh h
      simp only [MDTOG.break_cycles_and_order.go] at h
      cases hgd : sccs.getD i [] with
      | nil => rw [hgd] at h; exact absurd h (by simp)
      | cons u t =>
          cases t with
          | cons a b => rw [hgd] at h; exact absurd h (by simp)
          | nil =>
              rw [hgd] at h
              have hu_fresh : u ∉ processed := hfresh i (by simp) u hgd
              have h2 : (if u ∈ processed then
                    MDTOG.break_cycles_and_order.go g sccs rest processed acc
                  else
                    match g.get_component u with
                    | some c => MDTOG.break_cycles_and_order.go g sccs rest
                        (processed ++ [u]) (acc ++ [c])
                    | none => Except.error
                        "AttributeError: component lookup returned None")
                  = Except.ok res := h
              rw [if_neg hu_fresh] at h2
              cases hgc : g.get_component u with
              | none => rw [hgc] at h2; exact absurd h2 (by simp)
              | some c =>
                  rw [hgc] at h2
                  have hnd' : rest.Nodup := (List.nodup_cons.mp hnd).2
                  have hi_rest : i ∉ rest := (List.nodup_cons.mp hnd).1
                  have hbound' : ∀ j ∈ rest, j < sccs.length :=
                    fun j hj => hbound j (List.mem_cons_of_mem i hj)
                  have hfresh' : ∀ j ∈ rest, ∀ v, sccs.getD j [] = [v] →
                      v ∉ processed ++ [u] := by
                    intro j hj v hv hvm
                    rcases List.mem_append.mp hvm with hvm | hvm
                    · exact hfresh j (List.mem_cons_of_mem i hj) v hv hvm
                    · rcases List.mem_singleton.mp hvm with rfl
                      refine flatten_nodup_disjoint sccs hflat i j
                        (hbound i (by simp)) (hbound' j hj)
                        (fun he => hi_rest (he ▸ hj)) v ?_ ?_
                      · rw [hgd]; simp
                      · rw [hv]; simp
                  obtain ⟨ih1, ih2⟩ := ih (processed ++ [u]) (acc ++ [c]) res
                    hnd' hbound' hfresh' h2
                  constructor
                  · intro j hj
                    rcases List.mem_cons.mp hj with rfl | hj
                    · exact ⟨u, c, hgd, hgc⟩
                    · exact ih1 j hj
                  · rw [ih2]
                    simp only [List.map_cons, hgd, List.headD_cons, hgc,
                      Option.getD_some, List.append_assoc, List.singleton_append]

/-- A relationship endpoint lemma: targets of stored relationships are keys. -/
theorem rel_target_mem_keys (g : DependencyGraph)
    (hrels : ∀ r ∈ g.relationships,
      dictGet r.2.source.id g.components = some r.2.source ∧
      dictGet r.2.target.id g.components = some r.2.target) :
    ∀ r ∈ g.get_relationships, r.source.id ∈ g.components.map Prod.fst ∧
      r.target.id ∈ g.components.map Prod.fst := by
  intro r hr
  obtain ⟨p, hp, rfl⟩ := List.mem_map.mp hr
  obtain ⟨hs, ht⟩ := hrels p hp
  exact ⟨dictGet_some_mem_keys _ _ _ hs, dictGet_some_mem_keys _ _ _ ht⟩

/-- A successful MDTOG run returns an order that permutes the component
list. -/
theorem mdtog_order_perm (g : DependencyGraph) (hwf : WF g) (r : TestOrderResult)
    (h : MDTOG.generate_order g = .ok r) :
    r.order.Perm g.get_components := by
  obtain ⟨hkeys, hids, hnodes_eq, hadj, hrels, hedges⟩ := hwf
  have hwn : MDTOG.weightedNodes g = g.components.map Prod.fst :=
    weightedNodes_eq g hids hrels
  have hwn_nd : (MDTOG.weightedNodes g).Nodup := hwn ▸ hkeys
  have hwe := weightedEdges_spec g.get_relationships [] List.nodup_nil
  have hwe_nd : (MDTOG.weightedEdges g).Nodup := hwe.1
  have hwe_closed : ∀ e ∈ MDTOG.weightedEdges g, e.2 ∈ MDTOG.weightedNodes g := by
    intro e he
    rcases hwe.2 e he with h0 | ⟨r0, hr0, rfl⟩
    · exact absurd h0 (List.not_mem_nil e)
    · rw [hwn]
      exact (rel_target_mem_keys g hrels r0 hr0).2
  have hflat_perm :
      (sccList (MDTOG.weightedNodes g) (MDTOG.weightedEdges g)).flatten.Perm
        (MDTOG.weightedNodes g) :=
    sccList_flatten_perm _ _ hwn_nd hwe_closed
  have hflat_nd :
      (sccList (MDTOG.weightedNodes g) (MDTOG.weightedEdges g)).flatten.Nodup :=
    hflat_perm.nodup_iff.mpr hwn_nd
  unfold MDTOG.generate_order at h
  simp only [bind, pure] at h
  obtain ⟨ordered, hord, h⟩ := exceptBind_ok h
  simp only [Except.pure, Except.ok.injEq] at h
  subst h
  simp only [Base.create_result]
  unfold MDTOG.break_cycles_and_order at hord
  split at hord
  · exact absurd hord (by simp)
  · rename_i order hts
    have hcond_nd : (MDTOG.condensationEdges
        (sccList (MDTOG.weightedNodes g) (MDTOG.weightedEdges g))
        (MDTOG.weightedEdges g)).Nodup := by
      unfold MDTOG.condensationEdges
      exact condensationEdges_nodup _ _ [] List.nodup_nil
    have hts_perm : order.Perm (List.range
        (sccList (MDTOG.weightedNodes g) (MDTOG.weightedEdges g)).length) :=
      topoSort_perm _ _ (List.nodup_range _) hcond_nd order hts
    obtain ⟨hsing, hres⟩ := mdtog_go_ok g
      (sccList (MDTOG.weightedNodes g) (MDTOG.weightedEdges g)) hflat_nd
      order [] [] ordered
      (hts_perm.nodup_iff.mpr (List.nodup_range _))
      (fun i hi => List.mem_range.mp (hts_perm.mem_iff.mp hi))
      (fun i _ u _ hu => absurd hu (List.not_mem_nil u))
      hord
    have hall : ∀ i, i < (sccList (MDTOG.weightedNodes g)
        (MDTOG.weightedEdges g)).length →
        ∃ u, (sccList (MDTOG.weightedNodes g) (MDTOG.weightedEdges g)).getD i []
          = [u] := by
      intro i hi
      obtain ⟨u, c, h1, _⟩ := hsing i (hts_perm.mem_iff.mpr (List.mem_range.mpr hi))
      exact ⟨u, h1⟩
    have hflat_eq := flatten_eq_map_range _ hall
    have hid_eq : ∀ i ∈ order,
        ((g.get_component (((sccList (MDTOG.weightedNodes g)
            (MDTOG.weightedEdges g)).getD i []).headD 0)).getD default).id =
          ((sccList (MDTOG.weightedNodes g)
            (MDTOG.weightedEdges g)).getD i []).headD 0 := by
      intro i hi
      obtain ⟨u, c, h1, h2⟩ := hsing i hi
      rw [h1]
      simp only [List.headD_cons]
      rw [h2]
      simp only [Option.getD_some]
      have hmem := dictGet_mem u c g.components h2
      exact (hids (u, c) hmem).symm
    have hidperm : (ordered.map Component.id).Perm (g.components.map Prod.fst) := by
      rw [hres]
      simp only [List.nil_append, List.map_map]
      have hmc : order.map (Component.id ∘ fun i =>
          (g.get_component (((sccList (MDTOG.weightedNodes g)
            (MDTOG.weightedEdges g)).getD i []).headD 0)).getD default) =
          order.map (fun i => ((sccList (MDTOG.weightedNodes g)
            (MDTOG.weightedEdges g)).getD i []).headD 0) := by
        apply List.map_congr_left
        intro i hi
        exact hid_eq i hi
      rw [hmc]
      refine ((hts_perm.map _).trans ?_).trans (hflat_perm.trans (hwn ▸ List.Perm.refl _))
      rw [← hflat_eq]
    have hsub : ∀ c ∈ ordered, c ∈ g.get_components := by
      intro c hc
      rw [hres, List.nil_append] at hc
      obtain ⟨i, hi, hci⟩ := List.mem_map.mp hc
      obtain ⟨u, c0, h1, h2⟩ := hsing i hi
      rw [h1] at hci
      simp only [List.headD_cons] at hci
      rw [h2] at hci
      simp only [Option.getD_some] at hci
      subst hci
      exact List.mem_map.mpr ⟨(u, c0), dictGet_mem u c0 g.components h2, rfl⟩
    refine perm_of_sub_of_len g.get_components ordered
      (hidperm.nodup_iff.mpr hkeys) hsub ?_
    have h1 : (ordered.map Component.id).length = (g.components.map Prod.fst).length :=
      hidperm.length_eq
    have h2 : (g.get_components).length = (g.components.map Prod.fst).length := by
      unfold DependencyGraph.get_components
      simp
    simp only [List.length_map] at h1 h2 ⊢
    omega

/-- The all-empty initial stub dict reads as empty everywhere. -/
theorem stubsGet_init (c : Component) :
    ∀ cs : List Component,
      stubsGet (cs.map (fun x => (x, ([] : List Component)))) c = [] := by
  intro cs
  induction cs with
  | nil => rfl
  | cons x rest ih =>
      unfold stubsGet
      unfold stubsGet at ih
      simp only [List.map_cons]
      by_cases hx : x.id = c.id
      · rw [List.find?_cons_of_pos _ (by simpa using hx)]
      · rw [List.find?_cons_of_neg _ (by simpa using hx)]
        exact ih

/-- Updating one entry leaves the key ids unchanged. -/
theorem stubsUpdate_keys (stubs : List (Component × List Component))
    (c : Component) (f : List Component → List Component) :
    (stubsUpdate stubs c f).map (fun p => p.1.id) = stubs.map (fun p => p.1.id) := by
  unfold stubsUpdate
  rw [List.map_map]
  apply List.map_congr_left
  intro p _
  by_cases hp : p.1.id = c.id
  · simp [hp]
  · simp [hp]

/-- Updating the entry of `c` does not change entries with other ids. -/
theorem stubsGet_update_ne (c q : Component) (f : List Component → List Component)
    (h : q.id ≠ c.id) :
    ∀ stubs : List (Component × List Component),
      stubsGet (stubsUpdate stubs c f) q = stubsGet stubs q := by
  intro stubs
  induction stubs with
  | nil => rfl
  | cons p rest ih =>
      unfold stubsGet
      unfold stubsGet at ih
      simp only [stubsUpdate, List.map_cons]
      simp only [stubsUpdate] at ih
      by_cases hq : p.1.id = q.id
      · have hp : ¬ p.1.id = c.id := fun hc => h (hq ▸ hc ▸ rfl)
        rw [if_neg hp]
        rw [List.find?_cons_of_pos _ (by simpa using hq),
          List.find?_cons_of_pos _ (by simpa using hq)]
      · by_cases hp : p.1.id = c.id
        · rw [if_pos hp]
          rw [List.find?_cons_of_neg _ (by simpa using hq),
            List.find?_cons_of_neg _ (by simpa using hq)]
          exact ih
        · rw [if_neg hp]
          rw [List.find?_cons_of_neg _ (by simpa using hq),
            List.find?_cons_of_neg _ (by simpa using hq)]
          exact ih

/-- Updating the entry of `c` applies the function to its stored set. -/
theorem stubsGet_update_eq (c : Component) (f : List Component → List Component) :
    ∀ stubs : List (Component × List Component),
      c.id ∈ stubs.map (fun p => p.1.id) →
      stubsGet (stubsUpdate stubs c f) c = f (stubsGet stubs c) := by
  intro stubs
  induction stubs with
  | nil => intro h; simp at h
  | cons p rest ih =>
      intro hkey
      unfold stubsGet
      unfold stubsGet at ih
      simp only [stubsUpdate, List.map_cons]
      simp only [stubsUpdate] at ih
      by_cases hp : p.1.id = c.id
      · rw [if_pos hp]
        rw [List.find?_cons_of_pos _ (by simpa using hp),
          List.find?_cons_of_pos _ (by simpa using hp)]
      · rw [if_neg hp]
        rw [List.find?_cons_of_neg _ (by simpa using hp),
          List.find?_cons_of_neg _ (by simpa using hp)]
        apply ih
        rcases List.mem_map.mp hkey with ⟨q, hq, hqid⟩
        rcases List.mem_cons.mp hq with rfl | hq
        · exact absurd hqid hp
        · exact List.mem_map.mpr ⟨q, hq, hqid⟩

/-- The per-component stub fold leaves other entries unchanged. -/
theorem foldStubs_other (g : DependencyGraph) (c q : Component)
    (tested : List Nat) (h : q.id ≠ c.id) :
    ∀ (deps : List Component) (stubs : List (Component × List Component)),
      stubsGet (deps.foldl (fun acc d => if d.id ∈ tested then acc
        else stubsUpdate acc c (fun s => setAdd s d)) stubs) q = stubsGet stubs q := by
  intro deps
  induction deps with
  | nil => intro stubs; rfl
  | cons d rest ih =>
      intro stubs
      simp only [List.foldl_cons]
      by_cases hd : d.id ∈ tested
      · rw [if_pos hd]
        exact ih stubs
      · rw [if_neg hd]
        rw [ih _]
        exact stubsGet_update_ne c q _ h stubs

/-- The per-component stub fold preserves the key ids. -/
theorem foldStubs_keys (c : Component) (tested : List Nat) :
    ∀ (deps : List Component) (stubs : List (Component × List Component)),
      (deps.foldl (fun acc d => if d.id ∈ tested then acc
        else stubsUpdate acc c (fun s => setAdd s d)) stubs).map (fun p => p.1.id) =
      stubs.map (fun p => p.1.id) := by
  intro deps
  induction deps with
  | nil => intro stubs; rfl
  | cons d rest ih =>
      intro stubs
      simp only [List.foldl_cons]
      by_cases hd : d.id ∈ tested
      · rw [if_pos hd]
        exact ih stubs
      · rw [if_neg hd]
        rw [ih _]
        exact stubsUpdate_keys stubs c _

/-- The per-component stub fold appends exactly the untested dependencies to
the walked entry (under id-distinctness). -/
theorem foldStubs_entry (c : Component) (tested : List Nat) :
    ∀ (deps : List Component) (stubs : List (Component × List Component)),
      c.id ∈ stubs.map (fun p => p.1.id) →
      (((stubsGet stubs c).map Component.id) ++ deps.map Component.id).Nodup →
      stubsGet (deps.foldl (fun acc d => if d.id ∈ tested then acc
        else stubsUpdate acc c (fun s => setAdd s d)) stubs) c =
      stubsGet stubs c ++ deps.filter (fun d => decide (d.id ∉ tested)) := by
  intro deps
  induction deps with
  | nil => intro stubs _ _; simp
  | cons d rest ih =>
      intro stubs hkey hnd
      have hnd' : (((stubsGet stubs c).map Component.id) ++
          rest.map Component.id).Nodup := by
        refine List.Sublist.nodup ?_ hnd
        simp only [List.map_cons]
        exact List.Sublist.append_left (List.sublist_cons_self _ _) _
      simp only [List.foldl_cons]
      by_cases hd : d.id ∈ tested
      · rw [if_pos hd]
        rw [ih stubs hkey hnd']
        rw [List.filter_cons_of_neg (by simpa using hd)]
      · rw [if_neg hd]
        have hdnotin : d.id ∉ (stubsGet stubs c).map Component.id := by
          intro hmem
          obtain ⟨_, _, hdisj⟩ := List.nodup_append.mp hnd
          exact hdisj hmem (by simp)
        have hnotany : ¬ (stubsGet stubs c).any (fun x => x.id = d.id) = true := by
          intro hany
          rw [List.any_eq_true] at hany
          obtain ⟨x, hx, hxid⟩ := hany
          exact hdnotin (List.mem_map.mpr ⟨x, hx, of_decide_eq_true hxid⟩)
        have hs' : stubsGet (stubsUpdate stubs c (fun s => setAdd s d)) c =
            stubsGet stubs c ++ [d] := by
          rw [stubsGet_update_eq c (fun s => setAdd s d) stubs hkey]
          unfold setAdd
          rw [if_neg hnotany]
        have hkey' : c.id ∈ (stubsUpdate stubs c (fun s => setAdd s d)).map
            (fun p => p.1.id) := by
          rw [stubsUpdate_keys]
          exact hkey
        have hnd2 : (((stubsGet (stubsUpdate stubs c (fun s => setAdd s d)) c).map
            Component.id) ++ rest.map Component.id).Nodup := by
          rw [hs', List.map_append]
          simp only [List.map_cons, List.map_nil] at hnd ⊢
          rw [List.append_assoc]
          simpa using hnd
        rw [ih _ hkey' hnd2, hs']
        rw [List.filter_cons_of_pos (by simpa using hd)]
        simp [List.append_assoc]

/-- The walk never touches entries whose id is absent from the walked order. -/
theorem walk_untouched (g : DependencyGraph) (q : Component) :
    ∀ (ord : List Component) (tested : List Nat)
      (stubs : List (Component × List Component)),
      (∀ e ∈ ord, e.id ≠ q.id) →
      stubsGet (Base.requiredStubsWalk g ord tested stubs) q = stubsGet stubs q := by
  intro ord
  induction ord with
  | nil => intro tested stubs _; rfl
  | cons x rest ih =>
      intro tested stubs hne
      show stubsGet (Base.requiredStubsWalk g rest (tested ++ [x.id]) _) q = _
      rw [ih _ _ (fun e he => hne e (List.mem_cons_of_mem x he))]
      exact foldStubs_other g x q tested
        (fun h => hne x (List.mem_cons_self x rest) h.symm) _ stubs

/-- The walk preserves the stub-dict key ids. -/
theorem walk_keys (g : DependencyGraph) :
    ∀ (ord : List Component) (tested : List Nat)
      (stubs : List (Component × List Component)),
      (Base.requiredStubsWalk g ord tested stubs).map (fun p => p.1.id) =
        stubs.map (fun p => p.1.id) := by
  intro ord
  induction ord with
  | nil => intro tested stubs; rfl
  | cons x rest ih =>
      intro tested stubs
      show (Base.requiredStubsWalk g rest (tested ++ [x.id]) _).map _ = _
      rw [ih]
      exact foldStubs_keys x tested _ stubs

/-- Characterisation of the stub set computed by the required-stubs walk: a
component is stubbed for `c` exactly when it is a dependency of `c` that is
neither initially tested nor listed before `c`. -/
theorem walk_spec (g : DependencyGraph) :
    ∀ (ord : List Component) (tested : List Nat)
      (stubs : List (Component × List Component)) (c : Component),
      c ∈ ord → (ord.map Component.id).Nodup → c.id ∉ tested →
      c.id ∈ stubs.map (fun p => p.1.id) →
      stubsGet stubs c = [] →
      ((Base.dependencyTargets g c).map Component.id).Nodup →
      ∀ d, d ∈ stubsGet (Base.requiredStubsWalk g ord tested stubs) c ↔
        (d ∈ Base.dependencyTargets g c ∧ d.id ∉ tested ∧ d.id ∉ idsBefore ord c) := by
  intro ord
  induction ord with
  | nil =>
      intro tested stubs c hc
      exact absurd hc (List.not_mem_nil c)
  | cons x rest ih =>
      intro tested stubs c hc hnd htested hkey hempty hdeps d
      have hndrest : (rest.map Component.id).Nodup := by
        simp only [List.map_cons] at hnd
        exact (List.nodup_cons.mp hnd).2
      by_cases hx : x.id = c.id
      · have hcx : c = x := by
          rcases List.mem_cons.mp hc with rfl | hcr
          · rfl
          · exfalso
            simp only [List.map_cons] at hnd
            exact (List.nodup_cons.mp hnd).1 (hx ▸ List.mem_map_of_mem Component.id hcr)
        subst hcx
        have hbefore : idsBefore (c :: rest) c = [] := by
          unfold idsBefore
          rw [List.takeWhile_cons_of_neg (by simp)]
          rfl
        show d ∈ stubsGet (Base.requiredStubsWalk g rest (tested ++ [c.id]) _) c ↔ _
        rw [walk_untouched g c rest _ _ ?hfresh]
        case hfresh =>
          intro e he hei
          simp only [List.map_cons] at hnd
          exact (List.nodup_cons.mp hnd).1 (hei ▸ List.mem_map_of_mem Component.id he)
        rw [foldStubs_entry c tested (Base.dependencyTargets g c) stubs hkey ?hnd2]
        case hnd2 =>
          rw [hempty]
          simpa using hdeps
        rw [hempty, hbefore]
        simp only [List.nil_append, List.mem_filter, List.not_mem_nil,
          not_false_iff, and_true]
        constructor
        · rintro ⟨h1, h2⟩
          exact ⟨h1, of_decide_eq_true h2⟩
        · rintro ⟨h1, h2⟩
          exact ⟨h1, decide_eq_true h2⟩
      · have hcr : c ∈ rest := by
          rcases List.mem_cons.mp hc with rfl | hcr
          · exact absurd rfl hx
          · exact hcr
        have hbefore : idsBefore (x :: rest) c = x.id :: idsBefore rest c := by
          unfold idsBefore
          rw [List.takeWhile_cons_of_pos (by simpa using hx)]
          rfl
        show d ∈ stubsGet (Base.requiredStubsWalk g rest (tested ++ [x.id]) _) c ↔ _
        rw [ih (tested ++ [x.id]) _ c hcr hndrest ?ht ?hk ?he hdeps d]
        case ht =>
          intro hm
          rcases List.mem_append.mp hm with hm | hm
          · exact htested hm
          · rcases List.mem_singleton.mp hm with hm
            exact hx hm.symm
        case hk =>
          rw [foldStubs_keys]
          exact hkey
        case he =>
          rw [foldStubs_other g x c tested (fun h => hx h.symm) _ stubs]
          exact hempty
        rw [hbefore]
        constructor
        · rintro ⟨h1, h2, h3⟩
          refine ⟨h1, fun hm => h2 (List.mem_append.mpr (Or.inl hm)), ?_⟩
          intro hm
          rcases List.mem_cons.mp hm with hm | hm
          · exact h2 (List.mem_append.mpr (Or.inr (by simp [hm])))
          · exact h3 hm
        · rintro ⟨h1, h2, h3⟩
          refine ⟨h1, ?_, fun hm => h3 (List.mem_cons_of_mem _ hm)⟩
          intro hm
          rcases List.mem_append.mp hm with hm | hm
          · exact h2 hm
          · rcases List.mem_singleton.mp hm with hm
            exact h3 (hm ▸ List.mem_cons_self _ _)

/-- The id-deduplication loop yields id-distinct components outside the seen
set. -/
theorem dedupByIdAux_spec : ∀ (l : List Component) (seen : List Nat),
    ((dedupByIdAux l seen).map Component.id).Nodup ∧
    (∀ c ∈ dedupByIdAux l seen, c.id ∉ seen) := by
  intro l
  induction l with
  | nil => intro seen; exact ⟨List.nodup_nil, fun c hc => absurd hc (List.not_mem_nil c)⟩
  | cons c cs ih =>
      intro seen
      simp only [dedupByIdAux]
      by_cases hc : c.id ∈ seen
      · rw [if_pos hc]
        exact ih seen
      · rw [if_neg hc]
        obtain ⟨ih1, ih2⟩ := ih (c.id :: seen)
        refine ⟨?_, ?_⟩
        · simp only [List.map_cons]
          refine List.nodup_cons.mpr ⟨?_, ih1⟩
          intro hmem
          obtain ⟨x, hx, hxid⟩ := List.mem_map.mp hmem
          exact ih2 x hx (hxid ▸ List.mem_cons_self _ _)
        · intro x hx
          rcases List.mem_cons.mp hx with rfl | hx
          · exact hc
          · exact fun hs => ih2 x hx (List.mem_cons_of_mem _ hs)

/-- The components of a deduplicated list have distinct ids. -/
theorem nodup_map_id_dedupById (l : List Component) :
    ((dedupById l).map Component.id).Nodup := (dedupByIdAux_spec l []).1

/-- `occursBefore` agrees with membership in the prefix before `c`. -/
theorem occursBefore_iff_idsBefore :
    ∀ (order : List Component) (c d : Component),
      (order.map Component.id).Nodup → c.id ∈ order.map Component.id →
      (occursBefore order d c ↔ d.id ∈ idsBefore order c) := by
  intro order
  induction order with
  | nil => intro c d _ hc; simp at hc
  | cons x rest ih =>
      intro c d hnd hc
      simp only [List.map_cons] at hnd hc
      obtain ⟨hx_nd, hrest_nd⟩ := List.nodup_cons.mp hnd
      by_cases hx : x.id = c.id
      · have hbefore : idsBefore (x :: rest) c = [] := by
          unfold idsBefore
          rw [List.takeWhile_cons_of_neg (by simp [hx])]
          rfl
        rw [hbefore]
        unfold occursBefore
        simp only [List.map_cons, List.indexOf_cons]
        have hxeq : (x.id == c.id) = true := beq_iff_eq.mpr hx
        rw [hxeq]
        simp
      · have hbefore : idsBefore (x :: rest) c = x.id :: idsBefore rest c := by
          unfold idsBefore
          rw [List.takeWhile_cons_of_pos (by simpa using hx)]
          rfl
        rw [hbefore]
        have hcr : c.id ∈ rest.map Component.id := by
          rcases List.mem_cons.mp hc with h | h
          · exact absurd h.symm hx
          · exact h
        unfold occursBefore
        simp only [List.map_cons, List.indexOf_cons]
        have hxeq : (x.id == c.id) = false := beq_eq_false_iff_ne.mpr hx
        rw [hxeq]
        by_cases hd : d.id = x.id
        · have hdeq : (x.id == d.id) = true := beq_iff_eq.mpr hd.symm
          rw [hdeq]
          simp [hd]
        · have hdeq : (x.id == d.id) = false := beq_eq_false_iff_ne.mpr (fun h => hd h.symm)
          rw [hdeq]
          simp only [cond_false]
          have := ih c d hrest_nd hcr
          unfold occursBefore at this
          rw [List.mem_cons]
          constructor
          · intro h
            exact Or.inr (this.mp (by omega))
          · intro h
            rcases h with h | h
            · exact absurd h hd
            · have := this.mpr h
              omega

/-! ### Claim theorems -/

/-- C9 counterexample: two components with the same name `"A"` but different
ids are not equal under `Component.__eq__`, refuting name-based equality. -/
theorem c9_counterexample :
    compA.name = compAlias.name ∧ componentPyEq compA compAlias = false := by
  constructor <;> rfl

/-- C9 (amended): `Component.__eq__` compares by id, not by name, and
`Component.__hash__` is the hash of the id alone. -/
theorem c9_amended :
    (∀ x y : Component, componentPyEq x y = true ↔ x.id = y.id) ∧
    (∀ c : Component, componentPyHash c = c.id) := by
  constructor
  · intro x y
    simp [componentPyEq]
  · intro c
    rfl

/-- C5 counterexample: adding a relationship whose endpoints are unregistered
succeeds, stores the relationship, and registers no component, violating the
endpoint invariant. -/
theorem c5_counterexample :
    (emptyGraph.add_relationship relAB).relationships = [(100, relAB)] ∧
    (emptyGraph.add_relationship relAB).components = [] ∧
    relAB.source.id ∉ ((emptyGraph.add_relationship relAB).components.map Prod.fst) := by
  refine ⟨rfl, rfl, ?_⟩
  simp [emptyGraph, mkGraph, DependencyGraph.add_relationship]

/-- C5 (amended): `add_relationship` performs no validation at all: for every
graph and relationship it stores the relationship under its id and leaves the
component dict untouched, so relationships with unregistered endpoints are
accepted. -/
theorem c5_amended (g : DependencyGraph) (r : Relationship) :
    dictGet r.id (g.add_relationship r).relationships = some r ∧
    (g.add_relationship r).components = g.components := by
  constructor
  · exact dictGet_dictInsert r.id r g.relationships
  · rfl

/-- C7 counterexample: on the empty graph the Weighted-Level strategy returns
an empty order but a non-empty justification list (header and summary lines
are always emitted), refuting the claimed empty justification. -/
theorem c7_counterexample :
    (TaiDaniels.generate_order emptyGraph).order = [] ∧
    (TaiDaniels.generate_order emptyGraph).justification ≠ [] := by
  with_unfolding_all decide

/-- C7 (amended): on the empty graph every strategy succeeds with an empty
order, an empty stub map and all-zero metrics, and `Compare` and `SelectBest`
succeed likewise, but the justification lists are non-empty. -/
theorem c7_amended :
    ((runStrategy .td emptyGraph).map
      (fun r => (r.order, r.stubs, r.metrics, r.justification.isEmpty))
      = .ok ([], [], ⟨0, 0, 0, 0⟩, false)) ∧
    ((runStrategy .tjjm emptyGraph).map
      (fun r => (r.order, r.stubs, r.metrics, r.justification.isEmpty))
      = .ok ([], [], ⟨0, 0, 0, 0⟩, false)) ∧
    ((runStrategy .blw emptyGraph).map
      (fun r => (r.order, r.stubs, r.metrics, r.justification.isEmpty))
      = .ok ([], [], ⟨0, 0, 0, 0⟩, false)) ∧
    ((runStrategy .mdtog emptyGraph).map
      (fun r => (r.order, r.stubs, r.metrics, r.justification.isEmpty))
      = .ok ([], [], ⟨0, 0, 0, 0⟩, false)) ∧
    ((Selector.compare_algorithms emptyGraph).map (fun m => m.map Prod.fst)
      = .ok ["Tai-Daniels", "TJJM", "BLW"]) ∧
    ((Selector.select_best_algorithm emptyGraph).map
      (fun x => (x.2.1.order, x.2.1.stubs, x.2.1.metrics, x.2.2.isEmpty))
      = .ok ([], [], ⟨0, 0, 0, 0⟩, false)) := by
  refine ⟨?_, ?_, ?_, ?_, ?_, ?_⟩ <;> with_unfolding_all rfl

/-- C4: the stub-complexity computation can never run: `BLW.generate_order`
on a cyclic graph and the selector's `_calculate_stub_complexity` on any
result with a stub both call `get_relationship(source, target)` against the
one-argument (relationship-id) signature and raise a `TypeError`; the claimed
complexity-times-multiplier value is never produced. -/
theorem c4_code_bug :
    BLW.generate_order twoCycleGraph = .error typeErrorGetRelationship ∧
    Selector.calculate_stub_complexity twoCycleGraph
      (TaiDaniels.generate_order twoCycleGraph) = .error typeErrorGetRelationship ∧
    (stubsGet (TaiDaniels.generate_order twoCycleGraph).stubs compA).map
      Component.name = ["B"] := by
  refine ⟨?_, ?_, ?_⟩ <;> with_unfolding_all rfl

/-- C3: on the acyclic chain graph (`A` depends on `B` depends on `C`) the
Weighted-Feedback strategy (MDTOG) returns the forward order `[A, B, C]` with
two stubs, instead of the claimed reverse topological order with zero
stubs: `_break_cycles_and_order` does not reverse the condensation order. -/
theorem c3_code_bug :
    isAcyclicEdges chainGraph.nodes chainGraph.edgePairs = true ∧
    (runStrategy .mdtog chainGraph).map
      (fun r => (r.order.map Component.name,
        (stubsGet r.stubs compA).map Component.name,
        r.metrics.total_stub_count))
      = .ok (["A", "B", "C"], ["B"], 2) := by
  constructor <;> with_unfolding_all rfl

/-- C6 counterexample: on the self-loop graph the TJJM strategy raises, and
`Compare` does not complete with the remaining strategies: it aborts with an
exception of its own (the evaluation of the Tai-Daniels result raises the
`get_relationship` arity `TypeError` first). -/
theorem c6_counterexample :
    TJJM.generate_order selfLoopGraph
      = .error "Graph contains cycles, cannot perform topological sort" ∧
    Selector.compare_algorithms selfLoopGraph = .error typeErrorGetRelationship := by
  constructor <;> with_unfolding_all rfl

/-- C6 (amended): strategy runs are not isolated: whenever the TJJM or BLW
strategy would fail on a graph, `compare_algorithms` fails as a whole and
returns no comparison map. -/
theorem c6_amended (g : DependencyGraph) :
    ((TJJM.generate_order g).isOk = false →
      (Selector.compare_algorithms g).isOk = false) ∧
    ((BLW.generate_order g).isOk = false →
      (Selector.compare_algorithms g).isOk = false) := by
  constructor
  · intro h
    cases hc : Selector.compare_algorithms g with
    | error e => rfl
    | ok m =>
        exfalso
        unfold Selector.compare_algorithms at hc
        simp only [bind, pure] at hc
        obtain ⟨c1, h1, hc⟩ := exceptBind_ok hc
        obtain ⟨r2, h2, hc⟩ := exceptBind_ok hc
        rw [h2] at h
        simp [Except.isOk, Except.toBool] at h
  · intro h
    cases hc : Selector.compare_algorithms g with
    | error e => rfl
    | ok m =>
        exfalso
        unfold Selector.compare_algorithms at hc
        simp only [bind, pure] at hc
        obtain ⟨c1, h1, hc⟩ := exceptBind_ok hc
        obtain ⟨r2, h2, hc⟩ := exceptBind_ok hc
        obtain ⟨c2, h3, hc⟩ := exceptBind_ok hc
        obtain ⟨r3, h4, hc⟩ := exceptBind_ok hc
        rw [h4] at h
        simp [Except.isOk, Except.toBool] at h

/-- C6 witness: the self-loop graph satisfies the hypothesis (TJJM fails
there) and `Compare` indeed fails. -/
theorem c6_amended_witness :
    (Selector.compare_algorithms selfLoopGraph).isOk = false :=
  (c6_amended selfLoopGraph).1 (by with_unfolding_all rfl)

/-- C1 counterexample: the selector registers three strategies, not four: on
the empty graph `Compare` returns comparisons keyed exactly
`Tai-Daniels`, `TJJM`, `BLW`; no `MDTOG` (Weighted-Feedback) entry exists and
the map has three entries, not four. -/
theorem c1_counterexample :
    ((Selector.compare_algorithms emptyGraph).map (fun m => m.map Prod.fst)
      = .ok ["Tai-Daniels", "TJJM", "BLW"]) ∧
    ((Selector.compare_algorithms emptyGraph).map
      (fun m => decide ("MDTOG" ∈ m.map Prod.fst)) = .ok false) ∧
    ((Selector.compare_algorithms emptyGraph).map (fun m => m.length) = .ok 3) := by
  refine ⟨?_, ?_, ?_⟩ <;> with_unfolding_all rfl

/-- C1 (amended): `Compare` runs exactly the three registered strategies
(Tai-Daniels, TJJM, BLW) and returns one comparison for each, and
`SelectBest` picks its winner from among those three. -/
theorem c1_amended (g : DependencyGraph) :
    (∀ m, Selector.compare_algorithms g = .ok m →
      m.map Prod.fst = ["Tai-Daniels", "TJJM", "BLW"]) ∧
    (∀ x, Selector.select_best_algorithm g = .ok x →
      x.1 ∈ ["Tai-Daniels", "TJJM", "BLW"]) := by
  constructor
  · intro m hm
    obtain ⟨c1, c2, c3, rfl⟩ := compare_ok_shape g m hm
    rfl
  · intro x hx
    unfold Selector.select_best_algorithm at hx
    simp only [bind, pure] at hx
    obtain ⟨m, hm, hx⟩ := exceptBind_ok hx
    have hkeys := compare_ok_shape g m hm
    obtain ⟨c1, c2, c3, rfl⟩ := hkeys
    cases hb : List.foldl (Selector.selectFoldStep (Selector.calculate_weights g)) none
        [("Tai-Daniels", c1), ("TJJM", c2), ("BLW", c3)] with
    | none =>
        rw [hb] at hx
        simp [Except.pure] at hx
    | some q =>
        obtain ⟨n, c, s⟩ := q
        rw [hb] at hx
        obtain ⟨r, hr, hx⟩ := exceptBind_ok hx
        simp only [Except.pure, Except.ok.injEq] at hx
        subst hx
        have hn := selectFold_mem (Selector.calculate_weights g)
          [("Tai-Daniels", c1), ("TJJM", c2), ("BLW", c3)] none n c s hb
        rcases hn with ⟨c0, s0, h0⟩ | hn
        · exact absurd h0 (by simp)
        · simpa using hn

/-- C1 witness: on the empty graph the hypothesis of the amended theorem is
satisfied and the key list is exactly the three registered strategies. -/
theorem c1_amended_witness :
    cmpEmpty.map Prod.fst = ["Tai-Daniels", "TJJM", "BLW"] :=
  (c1_amended emptyGraph).1 cmpEmpty (by with_unfolding_all rfl)

/-- C2: for every strategy and every well-formed input graph, a successful
`generate_order` returns an order that is a permutation of the full component
list: each component occurs exactly once. -/
theorem c2_confirmed (s : Strategy) (g : DependencyGraph) (r : TestOrderResult)
    (hwf : WF g) (h : runStrategy s g = .ok r) :
    r.order.Perm g.get_components := by
  cases s with
  | td =>
      simp only [runStrategy] at h
      injection h with h
      subst h
      exact td_order_perm g hwf
  | tjjm => exact tjjm_order_perm g hwf r h
  | blw => exact blw_order_perm g hwf r h
  | mdtog => exact mdtog_order_perm g hwf r h

/-- C2 witness: the Tai-Daniels run on the chain graph satisfies the
hypotheses and its order permutes the component list. -/
theorem c2_confirmed_witness :
    tdChainResult.order.Perm chainGraph.get_components :=
  c2_confirmed .td chainGraph tdChainResult (by with_unfolding_all decide) (by rfl)

/-- C10: the Weighted-Level level-assignment loop is productive and
terminates: while any component is unassigned one iteration yields a
non-empty batch (the cycle fallback always finds an unassigned component),
and with `|components|` iterations the loop assigns every component. -/
theorem c10_confirmed (g : DependencyGraph) (hwf : WF g) :
    (∀ assigned : List Nat, assigned.length < (g.get_components).length →
      TaiDaniels.step g.get_components g.get_relationships assigned ≠ []) ∧
    ((TaiDaniels.assign_levels g.get_components g.get_relationships).flatMap
        (fun p => p.2)).length = (g.get_components).length := by
  obtain ⟨hkeys, hids, hnodes_eq, hadj, hrels, hedges⟩ := hwf
  have hinj : ((g.get_components).map Component.id).Nodup := by
    rw [compIds_eq g hids]
    exact hkeys
  constructor
  · intro assigned hlt
    exact (step_spec g.get_components g.get_relationships assigned hinj hlt).1
  · unfold TaiDaniels.assign_levels
    obtain ⟨h1, h2, h3⟩ := assignLevelsAux_spec g.get_components g.get_relationships hinj
      (g.get_components).length [] 0 (by simp) (by simp) (by simp)
    simp only [List.nil_append, List.length_nil, Nat.zero_add] at h1 h2 h3
    have hnd : ((TaiDaniels.assignLevelsAux g.get_components g.get_relationships
        (g.get_components).length [] 0).flatMap (fun p => p.2)).Nodup := by
      have := h1
      exact this.of_map
    have hle := ((hnd.subperm h2).length_le)
    omega

/-- C10 witness: on the chain graph the first iteration is productive and the
loop assigns all three components. -/
theorem c10_confirmed_witness :
    TaiDaniels.step chainGraph.get_components chainGraph.get_relationships [] ≠ [] ∧
    ((TaiDaniels.assign_levels chainGraph.get_components
        chainGraph.get_relationships).flatMap (fun p => p.2)).length =
      (chainGraph.get_components).length :=
  ⟨(c10_confirmed chainGraph (by with_unfolding_all decide)).1 []
      (by with_unfolding_all decide),
   (c10_confirmed chainGraph (by with_unfolding_all decide)).2⟩

set_option maxRecDepth 4000 in
/-- C8 counterexample: on `c8Graph` the Cycle-Impact (TJJM) strategy returns
an order in which component `1` occurs at position 14 and component `0` at
position 15, yet `1` — a dependency of `0` through the removed edge
`(0, 1)` — is a member of `stubs[0]`, refuting part (b) of the claim (a
dependency occurring earlier in the order must not be stubbed).  Every
selection round of the cycle-breaking loop has a strictly maximal edge
(`breakLoopStrict`), so the removed edge set, and hence this violation, does
not depend on the cycle enumeration order fixed by the embedding. -/
theorem c8_counterexample :
    ((TJJM.generate_order c8Graph).map (fun r =>
      (r.order.map Component.id,
       (stubsGet r.stubs (cmpN 0)).map Component.id,
       (r.order.map Component.id).indexOf 1,
       (r.order.map Component.id).indexOf 0))
      = .ok ([10, 9, 8, 7, 6, 5, 4, 3, 2, 15, 14, 13, 12, 11, 1, 0], [1], 14, 15)) ∧
    cmpN 1 ∈ Base.dependencyTargets c8Graph (cmpN 0) ∧
    breakLoopStrict c8SccIds (c8SubEdges.length + 1) c8SubEdges = true ∧
    c8SccIds.length = 16 := by
  refine ⟨?_, by with_unfolding_all decide, ?_, by with_unfolding_all decide⟩
  · with_unfolding_all rfl
  · with_unfolding_all rfl

/-- C8 (amended): for the stub sets computed by
`calculate_required_stubs` (the Weighted-Level and Weighted-Feedback
strategies, and the acyclic paths of the other two), the claim holds: a
component `d` is in `stubs[c]` exactly when it is a dependency of `c` that
does not occur earlier than `c` in the order; the TJJM cyclic path derives
stubs from the removed edges instead and violates part (b). -/
theorem c8_amended (g : DependencyGraph) (order : List Component)
    (hsub : ∀ c ∈ order, c ∈ g.get_components)
    (hnd : (order.map Component.id).Nodup) :
    ∀ c ∈ order, ∀ d,
      d ∈ stubsGet (Base.calculate_required_stubs g order) c ↔
        (d ∈ Base.dependencyTargets g c ∧ ¬ occursBefore order d c) := by
  intro c hc d
  unfold Base.calculate_required_stubs
  rw [walk_spec g order [] _ c hc hnd (by simp) ?hkey ?hempty ?hdeps d]
  case hkey =>
    have : ((g.get_components).map (fun x => (x, ([] : List Component)))).map
        (fun p => p.1.id) = (g.get_components).map Component.id := by
      rw [List.map_map]
      rfl
    rw [this]
    exact List.mem_map_of_mem Component.id (hsub c hc)
  case hempty => exact stubsGet_init c _
  case hdeps => exact nodup_map_id_dedupById _
  have hcm : c.id ∈ order.map Component.id := List.mem_map_of_mem Component.id hc
  have hob := occursBefore_iff_idsBefore order c d hnd hcm
  constructor
  · rintro ⟨h1, _, h3⟩
    exact ⟨h1, fun hov => h3 (hob.mp hov)⟩
  · rintro ⟨h1, h2⟩
    exact ⟨h1, by simp, fun hm => h2 (hob.mpr hm)⟩

/-- C8 witness: on the chain graph with the reverse order `[C, B, A]`, the
dependency `B` of `A` occurs earlier and is indeed not stubbed for `A`. -/
theorem c8_amended_witness :
    compB ∈ stubsGet (Base.calculate_required_stubs chainGraph
        [compC, compB, compA]) compA ↔
      (compB ∈ Base.dependencyTargets chainGraph compA ∧
        ¬ occursBefore [compC, compB, compA] compB compA) :=
  c8_amended chainGraph [compC, compB, compA] (by with_unfolding_all decide)
    (by with_unfolding_all decide) compA (by with_unfolding_all decide) compB

end LITF
